import Mathlib

/-!
# Verification of cmkinitramfs core algorithms

Shallow embedding, in Lean 4, of the core data structures and algorithms of
the `cmkinitramfs` initramfs generator:

* `cmkinitramfs/data.py` — the `Data` dependency-graph scheduler
  (`load` / `unload` emission, `set_final`, edge maintenance) and the
  per-variant shell fragments of `MdData` and `MountData`;
* `cmkinitramfs/bin.py` — `_is_elf_compatible`;
* `cmkinitramfs/item.py` / `cmkinitramfs/initramfs.py` — the
  `gen_init_cpio` list serialization.

Python-specific semantics that matter here are modelled explicitly:
`shlex.quote`, `os.path.dirname`, CPython's index-based list iteration
(`for k in self._needed_by` while the list mutates), Python `set`
deduplication, and `list.remove` raising `ValueError` on a missing element.
-/

set_option maxRecDepth 100000

namespace Cmk

/-! ## Python string helpers -/

/-- Characters considered safe by `shlex.quote` (CPython `_find_unsafe`:
a string is returned unquoted iff it is nonempty and every character is an
ASCII word character or one of `@ % + = : , . - ` or the path separator). -/
def shlexSafeChar (c : Char) : Bool :=
  (c.isAlphanum && c.toNat < 128) || c = '_' || c = '@' || c = '%' || c = '+'
    || c = '=' || c = ':' || c = ',' || c = '.' || c = '/' || c = '-'

/-- `shlex.quote`: return `s` unchanged when every character is safe and `s`
is nonempty; otherwise wrap in single quotes, escaping embedded single
quotes as `'"'"'`. -/
def quote (s : String) : String :=
  if s = "" then "''"
  else if s.data.all shlexSafeChar then s
  else "'" ++ String.mk (s.data.flatMap
    (fun c => if c = '\'' then "'\"'\"'".data else [c])) ++ "'"

/-- `os.path.dirname` for the paths used here (CPython `posixpath.dirname`):
everything up to the final `/`, with trailing slashes stripped unless the
result consists only of slashes. -/
def dirname (p : String) : String :=
  let cs := p.data
  match (cs.reverse.findIdx? (· = '/')) with
  | none => ""
  | some k =>
    let head := cs.take (cs.length - k)   -- prefix ending at the last '/'
    if head.all (· = '/') then String.mk head
    else String.mk (head.reverse.dropWhile (· = '/')).reverse

/-- Substring test (`needle in haystack` on Python strings). -/
def strContains (haystack needle : String) : Bool :=
  decide (needle.data <:+: haystack.data)

end Cmk

namespace Cmk

/-! ## `_is_elf_compatible` (`cmkinitramfs/bin.py`) -/

/-- The header fields of an ELF file that `_is_elf_compatible` inspects:
`elfclass` (32/64), `little_endian`, `e_machine`, and
`e_ident[EI_OSABI]` (pyelftools represents the last two as strings). -/
structure ELFFile where
  elfclass : Nat
  little_endian : Bool
  e_machine : String
  ei_osabi : String

/-- The single compatibility set of OSABI names used by the source
(`frozenset('ELFOSABI_%s' % x for x in ('NONE', 'SYSV', 'GNU', 'LINUX'))`). -/
def osabiCompatSet : List String :=
  ["ELFOSABI_NONE", "ELFOSABI_SYSV", "ELFOSABI_GNU", "ELFOSABI_LINUX"]

/-- `osabis = frozenset([e.header['e_ident']['EI_OSABI'] for e in (elf1, elf2)])`:
a Python frozenset of the two OSABI strings, as a deduplicated list. -/
def osabiPair (o1 o2 : String) : List String :=
  if o1 = o2 then [o1] else [o1, o2]

/-- `_is_elf_compatible` from `cmkinitramfs/bin.py`. -/
def isElfCompatible (elf1 elf2 : ELFFile) : Bool :=
  let osabis := osabiPair elf1.ei_osabi elf2.ei_osabi
  ((osabis.length = 1) || [osabiCompatSet].any (fun x => osabis.all (· ∈ x)))
    && elf1.elfclass = elf2.elfclass
    && elf1.little_endian = elf2.little_endian
    && elf1.e_machine = elf2.e_machine

/-- C8: `_is_elf_compatible(e1, e2)` returns true iff the two ELF files have
the same class, the same endianness, the same `e_machine`, and either
identical OSABI values or both OSABI values in the compatibility set
`{ELFOSABI_NONE, ELFOSABI_SYSV, ELFOSABI_GNU, ELFOSABI_LINUX}`. -/
theorem isElfCompatible_iff (e1 e2 : ELFFile) :
    isElfCompatible e1 e2 = true ↔
      e1.elfclass = e2.elfclass ∧
      e1.little_endian = e2.little_endian ∧
      e1.e_machine = e2.e_machine ∧
      (e1.ei_osabi = e2.ei_osabi ∨
        (e1.ei_osabi ∈ osabiCompatSet ∧ e2.ei_osabi ∈ osabiCompatSet)) := by
  by_cases h : e1.ei_osabi = e2.ei_osabi
  · simp only [isElfCompatible, osabiPair, if_pos h, Bool.and_eq_true,
      Bool.or_eq_true, decide_eq_true_eq, List.length_cons, List.length_nil]
    constructor
    · rintro ⟨⟨⟨-, hc⟩, he⟩, hm⟩
      exact ⟨hc, he, hm, Or.inl h⟩
    · rintro ⟨hc, he, hm, -⟩
      exact ⟨⟨⟨Or.inl trivial, hc⟩, he⟩, hm⟩
  · simp only [isElfCompatible, osabiPair, if_neg h, Bool.and_eq_true,
      Bool.or_eq_true, decide_eq_true_eq, List.length_cons, List.length_nil,
      List.any_cons, List.any_nil, List.all_cons, List.all_nil, Bool.or_false,
      Bool.and_true, and_true]
    constructor
    · rintro ⟨⟨⟨hos | hos, hc⟩, he⟩, hm⟩
      · omega
      · exact ⟨hc, he, hm, Or.inr ⟨hos.1, hos.2⟩⟩
    · rintro ⟨hc, he, hm, hos | hos⟩
      · exact absurd hos h
      · exact ⟨⟨⟨Or.inr ⟨hos.1, hos.2⟩, hc⟩, he⟩, hm⟩

/-! ## `MdData.load` (`cmkinitramfs/data.py`) -/

/-- A source `Data` of an `MdData`, abstracted to what `MdData.load`
inspects: whether it is a `UuidData` (and then its `uuid` attribute),
or otherwise its `path()` string. -/
inductive MdSource where
  | uuidData (uuid : String) (partition : Bool)
  | otherData (path : String)

/-- The string `MdData.load` adds to its `sources` set for one source. -/
def mdToken : MdSource → String
  | .uuidData u _ => "--uuid " ++ quote u ++ " "
  | .otherData p => p ++ " "

/-- `set.add` on a Python set of strings, modelled as a duplicate-free list.
Contents are faithful to the Python set; CPython's iteration order is
hash-dependent, which this model fixes to first-insertion order. -/
def pySetAdd (l : List String) (x : String) : List String :=
  if x ∈ l then l else l ++ [x]

/-- The `sources` set built by the loop at the top of `MdData.load`. -/
def mdSources (sources : List MdSource) : List String :=
  sources.foldl (fun acc s => pySetAdd acc (mdToken s)) []

/-- The text written by `MdData.load` between `_pre_load` and `_post_load`
(the `out.writelines` call), as the list of written pieces in order. -/
def mdLoadPieces (sources : List MdSource) (name : String) : List String :=
  ["info 'Assembling MD RAID " ++ name ++ "'\n",
   "MDADM_NO_UDEV=1 ",
   "mdadm --assemble "] ++ mdSources sources ++
  [quote name ++ " || die ",
   quote ("Failed to assemble MD RAID " ++ name), "\n",
   "\n"]

/-- The load fragment of `MdData.load` as a single string. -/
def mdLoadFragment (sources : List MdSource) (name : String) : String :=
  String.join (mdLoadPieces sources name)

/-- Adding to a Python set keeps it duplicate-free. -/
theorem pySetAdd_nodup {l : List String} {x : String} (h : l.Nodup) :
    (pySetAdd l x).Nodup := by
  unfold pySetAdd
  split
  · exact h
  · next hx =>
    rw [List.nodup_append]
    refine ⟨h, List.nodup_singleton x, ?_⟩
    intro a ha hb
    rw [List.mem_singleton] at hb
    subst hb
    exact hx ha

/-- Membership after adding to a Python set. -/
theorem mem_pySetAdd {l : List String} {x t : String} :
    t ∈ pySetAdd l x ↔ t ∈ l ∨ t = x := by
  unfold pySetAdd
  split
  · next hx =>
    constructor
    · exact Or.inl
    · rintro (h | rfl)
      · exact h
      · exact hx
  · simp [List.mem_append]

/-- The `sources`-set fold of `MdData.load` stays duplicate-free. -/
theorem mdSources_go_nodup (ss : List MdSource) (acc : List String)
    (h : acc.Nodup) :
    (ss.foldl (fun a s => pySetAdd a (mdToken s)) acc).Nodup := by
  induction ss generalizing acc with
  | nil => exact h
  | cons s ss ih => exact ih _ (pySetAdd_nodup h)

/-- Membership in the `sources`-set fold of `MdData.load`. -/
theorem mdSources_go_mem (ss : List MdSource) (acc : List String) (t : String) :
    t ∈ ss.foldl (fun a s => pySetAdd a (mdToken s)) acc ↔
      t ∈ acc ∨ t ∈ ss.map mdToken := by
  induction ss generalizing acc with
  | nil => simp
  | cons s ss ih =>
    rw [List.foldl_cons, ih, mem_pySetAdd, List.map_cons, List.mem_cons]
    tauto

/-- C6 (amended): the source tokens emitted by `MdData.load` are exactly the
distinct tokens of the declared sources (`--uuid <quoted uuid>` for a
`UuidData`, the source's `path()` otherwise), each emitted once — the code
collects them in a Python `set`, so duplicates collapse and the relative
order is not declaration order.  The array name follows the tokens and is
`shlex.quote`d, which leaves a safe name such as `0` unquoted: for sources
`[Uuid("aaaa"), Uuid("bbbb")]` and name `"0"` the fragment contains
`MDADM_NO_UDEV=1 mdadm --assemble `, the tokens `--uuid aaaa ` and
`--uuid bbbb `, and ` 0 || die 'Failed to assemble MD RAID 0'`. -/
theorem mdLoad_tokens_spec :
    (∀ sources : List MdSource, (mdSources sources).Nodup ∧
        ∀ t, t ∈ mdSources sources ↔ t ∈ sources.map mdToken) ∧
    strContains (mdLoadFragment [.uuidData "aaaa" false, .uuidData "bbbb" false] "0")
        "MDADM_NO_UDEV=1 mdadm --assemble " = true ∧
    strContains (mdLoadFragment [.uuidData "aaaa" false, .uuidData "bbbb" false] "0")
        "--uuid aaaa " = true ∧
    strContains (mdLoadFragment [.uuidData "aaaa" false, .uuidData "bbbb" false] "0")
        "--uuid bbbb " = true ∧
    strContains (mdLoadFragment [.uuidData "aaaa" false, .uuidData "bbbb" false] "0")
        " 0 || die 'Failed to assemble MD RAID 0'" = true := by
  refine ⟨fun sources => ⟨mdSources_go_nodup _ _ List.nodup_nil, fun t => ?_⟩,
    by decide, by decide, by decide, by decide⟩
  simpa using mdSources_go_mem sources [] t

/-- C6 fails as stated: for sources `[Uuid("aaaa"), Uuid("bbbb")]` and name
`"0"` the fragment does not contain `--uuid aaaa --uuid bbbb '0'` — the name
is not quoted (`shlex.quote("0") = "0"`); and the tokens are not "one per
declared source": a duplicated source yields a single token because the code
collects tokens into a Python `set`. -/
theorem mdLoad_claim_counterexample :
    strContains (mdLoadFragment [.uuidData "aaaa" false, .uuidData "bbbb" false] "0")
        "--uuid aaaa --uuid bbbb '0'" = false ∧
    mdSources [.uuidData "aaaa" false, .uuidData "aaaa" false] = ["--uuid aaaa "] := by
  exact ⟨by decide, by decide⟩

/-! ## `MountData.load` (`cmkinitramfs/data.py`) -/

/-- A `MountData`, abstracted to what `MountData.load` reads: the source's
`path()` string, the mountpoint, the filesystem name and the options. -/
structure MountData where
  srcPath : String
  mountpoint : String
  filesystem : String
  options : String

/-- `MountData.mkdir(path, fatal)`: the pieces of the auto-mkdir line. -/
def mountMkdirPieces (path : String) (fatal : Bool) : List String :=
  ["[ -d " ++ quote path ++ " ] || mkdir " ++ quote path ++ " || ",
   if fatal then "die " else "err ",
   quote ("Failed to create directory " ++ quote path), "\n"]

/-- `fsck_exec` in `MountData.load`. -/
def mountFsckExec (m : MountData) : String :=
  if m.filesystem ≠ "zfs" then "fsck -t " ++ quote m.filesystem else "fsck.zfs"

/-- The `fsck` tuple of `MountData.load`: present iff `source.path()` is not
the literal string `none`. -/
def mountFsckPieces (m : MountData) : List String :=
  if m.srcPath ≠ "none" then
    ["mount_fsck " ++ mountFsckExec m ++ " " ++ m.srcPath ++ " || die ",
     quote ("Failed to check filesystem " ++ m.mountpoint), "\n"]
  else []

/-- The `mkdir` tuple of `MountData.load`: present iff the parent directory
of the mountpoint is exactly `/mnt`. -/
def mountMkdirPart (m : MountData) : List String :=
  if dirname m.mountpoint = "/mnt" then mountMkdirPieces m.mountpoint false
  else []

/-- The final `mount` command pieces of `MountData.load`. -/
def mountCmdPieces (m : MountData) : List String :=
  ["mount -t " ++ quote m.filesystem ++ " -o " ++ quote m.options ++ " ",
   m.srcPath ++ " " ++ quote m.mountpoint ++ " || die ",
   quote ("Failed to mount filesystem " ++ m.mountpoint), "\n", "\n"]

/-- The text written by `MountData.load` between `_pre_load` and
`_post_load`, as the list of written pieces in order. -/
def mountLoadPieces (m : MountData) : List String :=
  ("info 'Mounting filesystem " ++ m.mountpoint ++ "'\n") ::
    (mountFsckPieces m ++ mountMkdirPart m ++ mountCmdPieces m)

/-- C7: the load fragment of a `Mount` node contains the `mount_fsck` check
line iff the source's `path()` is not the literal string `none`, contains
the auto-mkdir line iff the parent directory of the mountpoint is exactly
`/mnt`, and both, when present, precede the `mount` command. -/
theorem mountLoad_spec (m : MountData) :
    ∃ fsck mkdirp : List String,
      mountLoadPieces m =
        ("info 'Mounting filesystem " ++ m.mountpoint ++ "'\n") ::
          (fsck ++ (mkdirp ++ mountCmdPieces m)) ∧
      ((m.srcPath ≠ "none" ∧
          fsck = ["mount_fsck " ++ mountFsckExec m ++ " " ++ m.srcPath
                    ++ " || die ",
                  quote ("Failed to check filesystem " ++ m.mountpoint),
                  "\n"]) ∨
        (m.srcPath = "none" ∧ fsck = [])) ∧
      ((dirname m.mountpoint = "/mnt" ∧
          mkdirp = mountMkdirPieces m.mountpoint false) ∨
        (dirname m.mountpoint ≠ "/mnt" ∧ mkdirp = [])) := by
  refine ⟨mountFsckPieces m, mountMkdirPart m, by simp [mountLoadPieces], ?_, ?_⟩
  · by_cases h : m.srcPath = "none"
    · exact Or.inr ⟨h, by simp [mountFsckPieces, h]⟩
    · exact Or.inl ⟨h, by simp [mountFsckPieces, h]⟩
  · by_cases h : dirname m.mountpoint = "/mnt"
    · exact Or.inl ⟨h, by simp [mountMkdirPart, h]⟩
    · exact Or.inr ⟨h, by simp [mountMkdirPart, h]⟩

/-! ## `Item` serialization to a CPIO list
(`cmkinitramfs/item.py`, `cmkinitramfs/initramfs.py`) -/

/-- ASCII digit character for a digit value below 10. -/
def digitChar (d : Nat) : Char := Char.ofNat (48 + d)

/-- Base-8 digits of `n`, least significant first; the first argument is
structural fuel (`n` itself is always enough). -/
def octDigitsRevF : Nat → Nat → List Nat
  | 0, _ => []
  | _ + 1, 0 => []
  | f + 1, n + 1 => ((n + 1) % 8) :: octDigitsRevF f ((n + 1) / 8)

/-- Python `f"{n:03o}"`: octal, zero-padded to at least three digits. -/
def octal3 (n : Nat) : String :=
  let ds := ((octDigitsRevF n n).reverse).map digitChar
  let ds := if ds = [] then ['0'] else ds
  String.mk (List.replicate (3 - ds.length) '0' ++ ds)

/-- Base-10 digits of `n`, least significant first, with structural fuel. -/
def decDigitsRevF : Nat → Nat → List Nat
  | 0, _ => []
  | _ + 1, 0 => []
  | f + 1, n + 1 => ((n + 1) % 10) :: decDigitsRevF f ((n + 1) / 10)

/-- Python `f"{n}"` for a natural number: decimal representation. -/
def natDec (n : Nat) : String :=
  String.mk (if ((decDigitsRevF n n).reverse).map digitChar = [] then ['0']
    else ((decDigitsRevF n n).reverse).map digitChar)

/-- Python `' '.join(xs)`. -/
def joinSpace : List String → String
  | [] => ""
  | [x] => x
  | x :: xs => x ++ " " ++ joinSpace xs

/-- `Node.NodeType` from `cmkinitramfs/item.py`. -/
inductive NodeType where
  | block
  | character
  deriving DecidableEq

/-- The `value` of a `Node.NodeType` (`'b'` or `'c'`). -/
def NodeType.value : NodeType → String
  | .block => "b"
  | .character => "c"

/-- The `Item` variants of `cmkinitramfs/item.py`.  A `file`'s `dests` is a
Python `set` of destination paths, modelled as a list whose order carries no
meaning (serialization sorts it); `dataHash` is the content hash bytes. -/
inductive Item where
  | file (mode user group : Nat) (dests : List String) (src : String)
      (dataHash : List Nat)
  | directory (mode user group : Nat) (dest : String)
  | node (mode user group : Nat) (dest : String) (nodetype : NodeType)
      (major minor : Nat)
  | symlink (mode user group : Nat) (dest target : String)
  | pipe (mode user group : Nat) (dest : String)
  | socket (mode user group : Nat) (dest : String)
  deriving DecidableEq

/-- `sorted(self.dests)`: ascending lexicographic sort. -/
def sortedDests (dests : List String) : List String :=
  dests.insertionSort (· ≤ ·)

/-- `File.build_to_cpio_list`: one `file` record naming the first sorted
destination, then the source, mode, uid, gid, and the remaining sorted
destinations as hard links.  `none` models the `StopIteration` a run on an
empty destination set would raise. -/
def fileCpioLine (mode user group : Nat) (dests : List String) (src : String) :
    Option String :=
  match sortedDests dests with
  | [] => none
  | d :: ds =>
    some ("file " ++ d ++ " " ++ src ++ " "
      ++ octal3 mode ++ " " ++ natDec user ++ " " ++ natDec group
      ++ (if 1 < dests.length then " " else "")
      ++ joinSpace ds)

/-- `Item.build_to_cpio_list` for every variant. -/
def itemCpioLine : Item → Option String
  | .file m u g d s _ => fileCpioLine m u g d s
  | .directory m u g dest =>
    some ("dir " ++ dest ++ " " ++ octal3 m ++ " " ++ natDec u ++ " "
      ++ natDec g)
  | .node m u g dest t maj mino =>
    some ("nod " ++ dest ++ " " ++ octal3 m ++ " " ++ natDec u ++ " "
      ++ natDec g ++ " " ++ t.value ++ " " ++ natDec maj ++ " " ++ natDec mino)
  | .symlink m u g dest target =>
    some ("slink " ++ dest ++ " " ++ target ++ " " ++ octal3 m ++ " "
      ++ natDec u ++ " " ++ natDec g)
  | .pipe m u g dest =>
    some ("pipe " ++ dest ++ " " ++ octal3 m ++ " " ++ natDec u ++ " "
      ++ natDec g)
  | .socket m u g dest =>
    some ("sock " ++ dest ++ " " ++ octal3 m ++ " " ++ natDec u ++ " "
      ++ natDec g)

/-- `Initramfs.build_to_cpio_list`: each item's record followed by a
newline, in item-list (insertion) order. -/
def buildToCpioList (items : List Item) : Option String :=
  (items.mapM itemCpioLine).map
    (fun lines => String.join (lines.map (· ++ "\n")))

/-- Two items describe the same input: equal in every declared field, with
a `file`'s destination set compared as a set (up to permutation). -/
def ItemEquiv : Item → Item → Prop
  | .file m u g d s h, .file m' u' g' d' s' h' =>
    m = m' ∧ u = u' ∧ g = g' ∧ d.Perm d' ∧ s = s' ∧ h = h'
  | a, b => a = b

/-- Sorting a destination set is invariant under permutation of the input
list: the serialization depends only on the set. -/
theorem sortedDests_perm_congr {d d' : List String} (h : d.Perm d') :
    sortedDests d = sortedDests d' := by
  have hs1 : List.Sorted (· ≤ ·) (sortedDests d) :=
    List.sorted_insertionSort _ d
  have hs2 : List.Sorted (· ≤ ·) (sortedDests d') :=
    List.sorted_insertionSort _ d'
  exact List.eq_of_perm_of_sorted
    (((d.perm_insertionSort _).trans h).trans
      (d'.perm_insertionSort _).symm) hs1 hs2

/-- Equivalent items serialize to the same CPIO record. -/
theorem itemCpioLine_congr {a b : Item} (h : ItemEquiv a b) :
    itemCpioLine a = itemCpioLine b := by
  cases a <;> cases b <;> try (cases h <;> rfl)
  obtain ⟨rfl, rfl, rfl, hperm, rfl, rfl⟩ := h
  simp only [itemCpioLine, fileCpioLine, sortedDests_perm_congr hperm,
    hperm.length_eq]

/-- C9: the CPIO list is a total function of the inserted items — their
modes, owners, types, sources, content hashes, destination sets and the
insertion order; two runs on the same inputs produce byte-identical output.
In particular the only internal nondeterminism, the iteration order of a
`File`'s destination set, is cancelled by sorting. -/
theorem buildToCpioList_deterministic (items1 items2 : List Item)
    (h : List.Forall₂ ItemEquiv items1 items2) :
    buildToCpioList items1 = buildToCpioList items2 := by
  have hlines : items1.mapM itemCpioLine = items2.mapM itemCpioLine := by
    induction h with
    | nil => rfl
    | cons hab _ ih => simp only [List.mapM_cons, itemCpioLine_congr hab, ih]
  unfold buildToCpioList
  rw [hlines]

/-- Witness for C9: permuting a file's destination set does not change the
serialized CPIO list. -/
theorem buildToCpioList_deterministic_witness :
    List.Forall₂ ItemEquiv
        [Item.file 420 0 0 ["/bin/b", "/bin/a"] "/src/f" [7]]
        [Item.file 420 0 0 ["/bin/a", "/bin/b"] "/src/f" [7]] ∧
      buildToCpioList [Item.file 420 0 0 ["/bin/b", "/bin/a"] "/src/f" [7]] =
        buildToCpioList [Item.file 420 0 0 ["/bin/a", "/bin/b"] "/src/f" [7]] :=
  have h : List.Forall₂ ItemEquiv
      [Item.file 420 0 0 ["/bin/b", "/bin/a"] "/src/f" [7]]
      [Item.file 420 0 0 ["/bin/a", "/bin/b"] "/src/f" [7]] :=
    List.Forall₂.cons ⟨rfl, rfl, rfl, by decide, rfl, rfl⟩ List.Forall₂.nil
  ⟨h, buildToCpioList_deterministic _ _ h⟩

/-- All base-8 digits produced by `octDigitsRevF` are below 8. -/
theorem octDigitsRevF_lt (f : Nat) : ∀ n, ∀ d ∈ octDigitsRevF f n, d < 8 := by
  induction f with
  | zero => intro n d hd; simp [octDigitsRevF] at hd
  | succ f ih =>
    intro n d hd
    cases n with
    | zero => simp [octDigitsRevF] at hd
    | succ n =>
      rcases List.mem_cons.mp hd with rfl | hd
      · exact Nat.mod_lt _ (by norm_num)
      · exact ih _ _ hd

/-- All base-10 digits produced by `decDigitsRevF` are below 10. -/
theorem decDigitsRevF_lt (f : Nat) : ∀ n, ∀ d ∈ decDigitsRevF f n, d < 10 := by
  induction f with
  | zero => intro n d hd; simp [decDigitsRevF] at hd
  | succ f ih =>
    intro n d hd
    cases n with
    | zero => simp [decDigitsRevF] at hd
    | succ n =>
      rcases List.mem_cons.mp hd with rfl | hd
      · exact Nat.mod_lt _ (by norm_num)
      · exact ih _ _ hd

/-- Digit characters are never a newline. -/
theorem digitChar_ne_newline (d : Nat) (hd : d < 10) : digitChar d ≠ '\n' := by
  interval_cases d <;> decide

/-- The octal mode field contains no newline. -/
theorem newline_not_mem_octal3 (n : Nat) : '\n' ∉ (octal3 n).data := by
  unfold octal3
  intro hmem
  rcases List.mem_append.mp hmem with hmem | hmem
  · exact absurd (List.eq_of_mem_replicate hmem) (by decide)
  · split at hmem
    · simp at hmem
    · obtain ⟨d, hd, himg⟩ := List.mem_map.mp hmem
      exact digitChar_ne_newline d
        (Nat.lt_of_lt_of_le (octDigitsRevF_lt n n d (List.mem_reverse.mp hd))
          (by norm_num)) himg

/-- The decimal uid/gid fields contain no newline. -/
theorem newline_not_mem_natDec (n : Nat) : '\n' ∉ (natDec n).data := by
  unfold natDec
  intro hmem
  split at hmem
  · simp at hmem
  · obtain ⟨d, hd, himg⟩ := List.mem_map.mp hmem
    exact digitChar_ne_newline d
      (decDigitsRevF_lt n n d (List.mem_reverse.mp hd)) himg

/-- `' '.join` of newline-free strings is newline-free. -/
theorem newline_not_mem_joinSpace (l : List String)
    (h : ∀ x ∈ l, '\n' ∉ x.data) : '\n' ∉ (joinSpace l).data := by
  induction l with
  | nil => simp [joinSpace]
  | cons x xs ih =>
    cases xs with
    | nil => exact h x (List.mem_singleton.mpr rfl)
    | cons y ys =>
      intro hmem
      rw [show joinSpace (x :: y :: ys) = x ++ " " ++ joinSpace (y :: ys)
            from rfl] at hmem
      rcases List.mem_append.mp hmem with hmem | hmem
      · rcases List.mem_append.mp hmem with hmem | hmem
        · exact h x (by simp) hmem
        · simp at hmem
      · exact ih (fun z hz => h z (List.mem_cons_of_mem _ hz)) hmem

/-- C10: for a `File` with a non-empty destination set,
`build_to_cpio_list` produces exactly one record: its name is the
lexicographically smallest destination, followed by the source path, the
mode as at-least-three octal digits, the uid, the gid, and the remaining
destinations in ascending lexicographic order as hard-link names; no other
line is produced (the record contains no newline when its inputs do not). -/
theorem fileCpioLine_spec (mode user group : Nat) (dests : List String)
    (src : String) (h : dests ≠ []) :
    ∃ d ds, sortedDests dests = d :: ds ∧
      fileCpioLine mode user group dests src =
        some ("file " ++ d ++ " " ++ src ++ " "
          ++ octal3 mode ++ " " ++ natDec user ++ " " ++ natDec group
          ++ (if 1 < dests.length then " " else "")
          ++ joinSpace ds) ∧
      d ∈ dests ∧ (∀ x ∈ dests, d ≤ x) ∧
      (d :: ds).Perm dests ∧ List.Sorted (· ≤ ·) (d :: ds) ∧
      (('\n' ∉ src.data ∧ ∀ x ∈ dests, '\n' ∉ x.data) →
        ∀ out, fileCpioLine mode user group dests src = some out →
          '\n' ∉ out.data) := by
  have hperm : (sortedDests dests).Perm dests := dests.perm_insertionSort _
  have hsorted : List.Sorted (· ≤ ·) (sortedDests dests) :=
    List.sorted_insertionSort _ dests
  cases heq : sortedDests dests with
  | nil =>
    rw [heq] at hperm
    exact absurd (hperm.symm.eq_nil) h
  | cons d ds =>
    rw [heq] at hperm hsorted
    have hline : fileCpioLine mode user group dests src =
        some ("file " ++ d ++ " " ++ src ++ " "
          ++ octal3 mode ++ " " ++ natDec user ++ " " ++ natDec group
          ++ (if 1 < dests.length then " " else "")
          ++ joinSpace ds) := by
      unfold fileCpioLine
      rw [heq]
    have hmin : ∀ x ∈ dests, d ≤ x := by
      intro x hx
      rcases List.mem_cons.mp (hperm.symm.mem_iff.mp hx) with rfl | hx'
      · exact le_refl x
      · exact (List.sorted_cons.mp hsorted).1 x hx'
    refine ⟨d, ds, rfl, hline, hperm.mem_iff.mp (List.mem_cons_self d ds),
      hmin, hperm, hsorted, ?_⟩
    rintro ⟨hsrc, hdests⟩ out hout
    rw [hline] at hout
    injection hout with hout
    subst hout
    simp only [String.data_append, List.mem_append, not_or]
    repeat' apply And.intro
    all_goals
      first
        | decide
        | exact hsrc
        | exact hdests d (hperm.mem_iff.mp (List.mem_cons_self d ds))
        | exact newline_not_mem_octal3 mode
        | exact newline_not_mem_natDec user
        | exact newline_not_mem_natDec group
        | exact newline_not_mem_joinSpace ds
            (fun z hz => hdests z
              (hperm.mem_iff.mp (List.mem_cons_of_mem d hz)))
        | (split <;> decide)

/-- Witness for C10 at a concrete file with two destinations. -/
theorem fileCpioLine_spec_witness :
    (["/bin/ls", "/bin/dir"] : List String) ≠ [] ∧
      (∃ d ds, sortedDests ["/bin/ls", "/bin/dir"] = d :: ds ∧
        fileCpioLine 493 0 0 ["/bin/ls", "/bin/dir"] "/src/ls" =
          some ("file " ++ d ++ " " ++ "/src/ls" ++ " "
            ++ octal3 493 ++ " " ++ natDec 0 ++ " " ++ natDec 0
            ++ (if 1 < (["/bin/ls", "/bin/dir"] : List String).length then " "
                else "")
            ++ joinSpace ds) ∧
        d ∈ (["/bin/ls", "/bin/dir"] : List String) ∧
        (∀ x ∈ (["/bin/ls", "/bin/dir"] : List String), d ≤ x) ∧
        (d :: ds).Perm ["/bin/ls", "/bin/dir"] ∧
        List.Sorted (· ≤ ·) (d :: ds) ∧
        (('\n' ∉ "/src/ls".data ∧
            ∀ x ∈ (["/bin/ls", "/bin/dir"] : List String), '\n' ∉ x.data) →
          ∀ out, fileCpioLine 493 0 0 ["/bin/ls", "/bin/dir"] "/src/ls" =
              some out → '\n' ∉ out.data)) :=
  ⟨by decide, fileCpioLine_spec 493 0 0 ["/bin/ls", "/bin/dir"] "/src/ls"
    (by decide)⟩

/-! ## The `Data` dependency-graph scheduler (`cmkinitramfs/data.py`)

Nodes are identified by natural numbers.  The per-object attributes
`_need`, `_lneed`, `_needed_by`, `_is_final`, `_is_loaded` become the five
fields of `DataGraph`.  An emission pass writes the variant-specific load
and unload fragments into the output stream; the model records an `Ev.load
i` marker at the point where node `i`'s (possibly empty) load fragment is
written — between `_pre_load` and `_post_load` — and `Ev.unload i` where
its unload fragment is written — between `_pre_unload` and `_post_unload`.

Python semantics modelled explicitly: `DataError` raised by the guards,
`ValueError` raised by `list.remove` on a missing element, and CPython's
index-based `for` iteration over `self._needed_by` while that list shrinks.
Exceptions propagate without undoing state mutations or stream writes, so
an exceptional result carries the state and the output written so far.
Every recursive call spends one unit of structural fuel; `noFuel` is a
model artifact that cannot occur for sufficient fuel. -/

/-- Pointwise update of a per-node attribute. -/
def upd {α : Type} (f : Nat → α) (i : Nat) (v : α) : Nat → α :=
  fun j => if j = i then v else f j

/-- Per-node state of the `Data` graph. -/
structure DataGraph where
  need : Nat → List Nat
  lneed : Nat → List Nat
  neededBy : Nat → List Nat
  final : Nat → Bool
  loaded : Nat → Bool

/-- Stream events: the variant-specific load/unload fragment of a node. -/
inductive Ev where
  | load (i : Nat)
  | unload (i : Nat)
  deriving DecidableEq

/-- Python exceptions that the scheduler can raise. -/
inductive Exc where
  | dataError
  | valueError
  deriving DecidableEq

/-- Result of an emission step: normal return, a propagating exception
(with the state and stream content at the moment it is raised), or fuel
exhaustion (model artifact). -/
inductive Res where
  | ok (s : DataGraph) (out : List Ev)
  | exc (e : Exc) (s : DataGraph) (out : List Ev)
  | noFuel

/-- Prefix already-written output onto a later result. -/
def Res.withOut (o : List Ev) : Res → Res
  | .ok s o2 => .ok s (o ++ o2)
  | .exc e s o2 => .exc e s (o ++ o2)
  | .noFuel => .noFuel

/-- Python `list.remove`: drop the first occurrence, `None` (→ `ValueError`)
if the element is absent. -/
def pyRemove (l : List Nat) (x : Nat) : Option (List Nat) :=
  if x ∈ l then some (l.erase x) else none

/-- The site of an emission step: `Data.load` / `Data.unload` on a node,
the dependency loop of `_pre_load`, the two loops of `_post_load`
(`_needed_by` acceleration, with CPython's index iterator, and the
release of `_lneed`), and the release loop of `_post_unload` (over
`_need`).  The two release loops run the same code, so they share one
constructor, parameterized by the list snapshot being iterated. -/
inductive Call where
  | load (i : Nat)
  | loadSeq (ks : List Nat)
  | postLoad (i : Nat)
  | revLoop (i idx : Nat)
  | release (ks : List Nat) (i : Nat)
  | unload (i : Nat)

/-- One-step interpreter for the emission pass, structurally recursive on
fuel (every call decrements it).

* `.load i` — `Data.load`: `_pre_load` raises `DataError` if `_is_loaded`,
  else sets it and loads the not-yet-loaded members of
  `self._need + self._lneed` (a snapshot; neither list mutates during
  emission); then the variant fragment (`Ev.load i`); then `_post_load`.
* `.loadSeq ks` — the dependency loop of `_pre_load`.
* `.postLoad i` — `_post_load`: when not `_is_final`, load the reverse
  dependencies; then release every `_lneed` dependency.
* `.revLoop i idx` — `for k in self._needed_by`: the list is re-read each
  step and the index only advances, as in CPython when the body removes
  elements.
* `.release ks i` — `k._needed_by.remove(self)` for each `k` in the
  snapshot `ks` (`ValueError` if absent), then `k.unload` when the list
  becomes empty.
* `.unload i` — `Data.unload`: `_pre_unload` raises `DataError` if not
  loaded, or if final or still needed; then the variant fragment
  (`Ev.unload i`); then `_post_unload` releases `self._need` and clears
  `_is_loaded`. -/
def run : Nat → DataGraph → Call → Res
  | 0, _, _ => .noFuel
  | fuel + 1, s, .load i =>
    if s.loaded i then .exc .dataError s []
    else
      let s1 := { s with loaded := upd s.loaded i true }
      match run fuel s1 (.loadSeq (s1.need i ++ s1.lneed i)) with
      | .ok s2 o2 => Res.withOut (o2 ++ [Ev.load i]) (run fuel s2 (.postLoad i))
      | r => r
  | _ + 1, s, .loadSeq [] => .ok s []
  | fuel + 1, s, .loadSeq (k :: ks) =>
    if s.loaded k then run fuel s (.loadSeq ks)
    else
      match run fuel s (.load k) with
      | .ok s' o => Res.withOut o (run fuel s' (.loadSeq ks))
      | r => r
  | fuel + 1, s, .postLoad i =>
    match (if s.final i then .ok s [] else run fuel s (.revLoop i 0)) with
    | .ok s1 o1 => Res.withOut o1 (run fuel s1 (.release (s1.lneed i) i))
    | r => r
  | fuel + 1, s, .revLoop i idx =>
    let l := s.neededBy i
    if h : idx < l.length then
      let k := l.get ⟨idx, h⟩
      if s.loaded k then run fuel s (.revLoop i (idx + 1))
      else
        match run fuel s (.load k) with
        | .ok s' o => Res.withOut o (run fuel s' (.revLoop i (idx + 1)))
        | r => r
    else .ok s []
  | _ + 1, s, .release [] _ => .ok s []
  | fuel + 1, s, .release (k :: ks) i =>
    match pyRemove (s.neededBy k) i with
    | none => .exc .valueError s []
    | some nb =>
      let s1 := { s with neededBy := upd s.neededBy k nb }
      if nb = [] then
        match run fuel s1 (.unload k) with
        | .ok s2 o => Res.withOut o (run fuel s2 (.release ks i))
        | r => r
      else run fuel s1 (.release ks i)
  | fuel + 1, s, .unload i =>
    if s.loaded i then
      if s.final i ∨ s.neededBy i ≠ [] then .exc .dataError s []
      else
        match run fuel s (.release (s.need i) i) with
        | .ok s1 o =>
          .ok { s1 with loaded := upd s1.loaded i false } (Ev.unload i :: o)
        | .exc e s1 o => .exc e s1 (Ev.unload i :: o)
        | .noFuel => .noFuel
    else .exc .dataError s []

/-- `Data.load` on node `i`: one emission pass when `i` is the root. -/
def loadD (fuel : Nat) (s : DataGraph) (i : Nat) : Res :=
  run fuel s (.load i)

/-- `Data.unload` on node `i`. -/
def unloadD (fuel : Nat) (s : DataGraph) (i : Nat) : Res :=
  run fuel s (.unload i)

/-- `Data.add_dep`: promote the edge out of `_lneed` if present, append to
`_need` and to the dependency's `_needed_by` (each only if absent). -/
def addDep (s : DataGraph) (a dep : Nat) : DataGraph :=
  let s1 := if dep ∈ s.lneed a
    then { s with lneed := upd s.lneed a ((s.lneed a).erase dep) } else s
  let s2 := if dep ∈ s1.need a then s1
    else { s1 with need := upd s1.need a (s1.need a ++ [dep]) }
  if a ∈ s2.neededBy dep then s2
  else { s2 with neededBy := upd s2.neededBy dep (s2.neededBy dep ++ [a]) }

/-- `Data.add_load_dep`: append to `_lneed` unless already a dependency,
and to the dependency's `_needed_by` if absent. -/
def addLoadDep (s : DataGraph) (a dep : Nat) : DataGraph :=
  let s1 := if dep ∉ s.lneed a ∧ dep ∉ s.need a
    then { s with lneed := upd s.lneed a (s.lneed a ++ [dep]) } else s
  if a ∈ s1.neededBy dep then s1
  else { s1 with neededBy := upd s1.neededBy dep (s1.neededBy dep ++ [a]) }

/-- `Data.set_final`, with structural fuel: set `_is_final` and recurse
over the hard dependencies (`_need`) only. -/
def setFinalGo : Nat → DataGraph → Sum Nat (List Nat) → Option DataGraph
  | 0, _, _ => none
  | fuel + 1, s, .inl i =>
    setFinalGo fuel { s with final := upd s.final i true } (.inr (s.need i))
  | _ + 1, s, .inr [] => some s
  | fuel + 1, s, .inr (k :: ks) =>
    match setFinalGo fuel s (.inl k) with
    | some s' => setFinalGo fuel s' (.inr ks)
    | none => none

/-- `Data.set_final` on node `i`. -/
def setFinal (fuel : Nat) (s : DataGraph) (i : Nat) : Option DataGraph :=
  setFinalGo fuel s (.inl i)

/-- The stream content of a result (what was written to `out`). -/
def outOf : Res → List Ev
  | .ok _ out => out
  | .exc _ _ out => out
  | .noFuel => []

/-- Whether a result is a normal completion. -/
def isOk : Res → Bool
  | .ok _ _ => true
  | _ => false

/-- The empty graph: no nodes configured. -/
def emptyGraph : DataGraph :=
  { need := fun _ => [], lneed := fun _ => [], neededBy := fun _ => []
    final := fun _ => false, loaded := fun _ => false }

/-- C3: `Data.unload` writes the variant-specific unload fragment iff, at
that moment, the node is loaded, not final, and its `_needed_by` list is
empty; in every other case `_pre_unload` raises `DataError` before
anything is written, leaving the stream and the whole graph state
unchanged.  When the guard passes, the fragment is the first thing
written. -/
theorem unload_guard_spec (fuel : Nat) (s : DataGraph) (i : Nat) :
    (¬ (s.loaded i = true ∧ s.final i = false ∧ s.neededBy i = []) →
      unloadD (fuel + 1) s i = .exc .dataError s []) ∧
    ((s.loaded i = true ∧ s.final i = false ∧ s.neededBy i = []) →
      ∀ s' out, (unloadD (fuel + 1) s i = .ok s' out ∨
          ∃ e, unloadD (fuel + 1) s i = .exc e s' out) →
        ∃ rest, out = Ev.unload i :: rest) := by
  constructor
  · intro hguard
    unfold unloadD
    rw [run]
    by_cases hl : s.loaded i
    · rw [if_pos hl]
      rw [if_pos]
      by_contra hff
      rw [not_or] at hff
      exact hguard ⟨hl, by simpa using hff.1, by simpa using hff.2⟩
    · rw [if_neg hl]
  · rintro ⟨hl, hf, hnb⟩ s' out hres
    unfold unloadD at hres
    rw [run, if_pos hl, if_neg (by simp [hf, hnb])] at hres
    rcases hres with hres | ⟨e, hres⟩ <;> split at hres <;>
      first
        | (cases hres; exact ⟨_, rfl⟩)
        | cases hres

/-- Witness for C3: a loaded, non-final, unneeded leaf node unloads and its
fragment is written first. -/
theorem unload_guard_spec_witness :
    (({ emptyGraph with loaded := fun j => j = 0 } : DataGraph).loaded 0 = true ∧
      ({ emptyGraph with loaded := fun j => j = 0 } : DataGraph).final 0 = false ∧
      ({ emptyGraph with loaded := fun j => j = 0 } : DataGraph).neededBy 0 = []) ∧
    ∃ rest, (outOf (unloadD 5 { emptyGraph with loaded := fun j => j = 0 } 0)) =
      Ev.unload 0 :: rest := by
  have hg : ({ emptyGraph with loaded := fun j => j = 0 } : DataGraph).loaded 0 = true ∧
      ({ emptyGraph with loaded := fun j => j = 0 } : DataGraph).final 0 = false ∧
      ({ emptyGraph with loaded := fun j => j = 0 } : DataGraph).neededBy 0 = [] := by
    refine ⟨by simp [emptyGraph], rfl, rfl⟩
  refine ⟨hg, ?_⟩
  exact (unload_guard_spec 4 { emptyGraph with loaded := fun j => j = 0 } 0).2 hg
    _ _ (Or.inl rfl)

/-- The state carried by a result. -/
def stateOf : Res → DataGraph
  | .ok s _ => s
  | .exc _ s _ => s
  | .noFuel => emptyGraph

/-- Every occurrence of `b` in the stream is preceded by an occurrence of
`a`. -/
def precedes (a b : Ev) (out : List Ev) : Prop :=
  ∀ o1 o2, out = o1 ++ b :: o2 → a ∈ o1

/-- Reachability along dependency edges (`_need` or `_lneed`). -/
inductive Reach (s : DataGraph) : Nat → Nat → Prop
  | refl (i : Nat) : Reach s i i
  | step {i j k : Nat} : (j ∈ s.need i ∨ j ∈ s.lneed i) → Reach s j k →
      Reach s i k

/-- Invariant I2: `_needed_by` is exactly the inverse of
`_need ∪ _lneed`. -/
def EdgeInv (s : DataGraph) : Prop :=
  ∀ a b, a ∈ s.neededBy b ↔ (b ∈ s.need a ∨ b ∈ s.lneed a)

/-- The forward half of I2: every `_needed_by` entry is a real inverse
edge. -/
def EdgeInvSub (s : DataGraph) : Prop :=
  ∀ a b, a ∈ s.neededBy b → (b ∈ s.need a ∨ b ∈ s.lneed a)

/-- A witness that a dependency graph is acyclic: a rank function that
strictly decreases along every dependency edge. -/
def RankedAcyclic (s : DataGraph) (rank : Nat → Nat) : Prop :=
  ∀ i j, (j ∈ s.need i ∨ j ∈ s.lneed i) → rank j < rank i

/-- Counterexample graph for C1: `0` hard-needs `1` and `2`, `1` hard-needs
`2`, and `3` load-needs `0` and `1`.  Every `_needed_by` list is the exact
inverse of the edges, nothing is final, nothing is loaded. -/
def cexReload : DataGraph :=
  { need := fun j => if j = 0 then [1, 2] else if j = 1 then [2] else []
    lneed := fun j => if j = 3 then [0, 1] else []
    neededBy := fun j =>
      if j = 0 then [3] else if j = 1 then [0, 3]
      else if j = 2 then [0, 1] else []
    final := fun _ => false
    loaded := fun _ => false }

/-- Counterexample graph for C2: all edges hard; `0` needs `1` and `3`,
`1` needs `2`, `3` needs `1` and `2`; inverse lists exact; nothing final
or loaded. -/
def cexOrder : DataGraph :=
  { need := fun j =>
      if j = 0 then [1, 3] else if j = 1 then [2]
      else if j = 3 then [1, 2] else []
    lneed := fun _ => []
    neededBy := fun j =>
      if j = 1 then [0, 3] else if j = 2 then [1, 3]
      else if j = 3 then [0] else []
    final := fun _ => false
    loaded := fun _ => false }

/-- C1 fails as stated: on the acyclic graph `cexReload`, a single emission
pass from root `0` completes without error, node `2` is reachable from the
root, and its load fragment is written twice — the pass unloads `2` midway
(its reverse dependencies empty out) and then loads it again. -/
theorem load_exactly_once_counterexample :
    RankedAcyclic cexReload
      (fun j => if j = 3 then 3 else if j = 0 then 2 else if j = 1 then 1
        else 0) ∧
    (∀ j, cexReload.loaded j = false) ∧
    isOk (run 30 cexReload (.load 0)) = true ∧
    Reach cexReload 0 2 ∧
    outOf (run 30 cexReload (.load 0)) =
      [Ev.load 2, Ev.load 1, Ev.load 3, Ev.unload 0, Ev.unload 1,
       Ev.unload 2, Ev.load 2, Ev.load 0] ∧
    (outOf (run 30 cexReload (.load 0))).count (Ev.load 2) = 2 := by
  refine ⟨?_, fun j => rfl, by decide, ?_, by decide, by decide⟩
  · intro i j h
    rcases h with h | h
    · by_cases h0 : i = 0
      · subst h0
        simp only [cexReload, if_pos] at h
        rcases List.mem_cons.mp h with rfl | h
        · decide
        · rcases List.mem_cons.mp h with rfl | h
          · decide
          · simp at h
      · by_cases h1 : i = 1
        · subst h1
          simp only [cexReload, if_neg, h0] at h
          simp at h
          subst h
          decide
        · simp only [cexReload, if_neg h0, if_neg h1] at h
          simp at h
    · by_cases h3 : i = 3
      · subst h3
        simp only [cexReload] at h
        rcases List.mem_cons.mp h with rfl | h
        · decide
        · rcases List.mem_cons.mp h with rfl | h
          · decide
          · simp at h
      · simp only [cexReload, if_neg h3] at h
        simp at h
  · exact Reach.step (Or.inl (by decide)) (Reach.refl 2)

/-- C2 fails as stated: on the acyclic all-hard-edge graph `cexOrder`, a
single emission pass from root `0` completes without error, `1` is a hard
dependency of `3`, yet `3`'s load fragment is written before `1`'s —
node `3` is loaded through the reverse-dependency acceleration of
`_post_load` while `1` is still mid-`_pre_load`. -/
theorem load_order_counterexample :
    RankedAcyclic cexOrder
      (fun j => if j = 0 then 3 else if j = 3 then 2 else if j = 1 then 1
        else 0) ∧
    (∀ j, cexOrder.loaded j = false) ∧
    isOk (run 30 cexOrder (.load 0)) = true ∧
    (1 ∈ cexOrder.need 3) ∧
    outOf (run 30 cexOrder (.load 0)) =
      [Ev.load 2, Ev.load 3, Ev.load 1, Ev.load 0] ∧
    ¬ precedes (Ev.load 1) (Ev.load 3) (outOf (run 30 cexOrder (.load 0))) := by
  refine ⟨?_, fun j => rfl, by decide, by decide, by decide, ?_⟩
  · intro i j h
    rcases h with h | h
    · by_cases h0 : i = 0
      · subst h0
        simp only [cexOrder, if_pos] at h
        rcases List.mem_cons.mp h with rfl | h
        · decide
        · rcases List.mem_cons.mp h with rfl | h
          · decide
          · simp at h
      · by_cases h1 : i = 1
        · subst h1
          simp only [cexOrder, if_neg, h0] at h
          simp at h
          subst h
          decide
        · by_cases h3 : i = 3
          · subst h3
            simp only [cexOrder] at h
            rcases List.mem_cons.mp h with rfl | h
            · decide
            · rcases List.mem_cons.mp h with rfl | h
              · decide
              · simp at h
          · simp only [cexOrder, if_neg h0, if_neg h1, if_neg h3] at h
            simp at h
    · simp only [cexOrder] at h
      simp at h
  · intro hp
    have := hp [Ev.load 2] [Ev.load 1, Ev.load 0] (by decide)
    simp at this

/-- C4 fails as stated: starting from the single load edge `0 → 1` (built
by `add_load_dep`, after which I2 holds), a completed load pass removes `0`
from `1._needed_by` in `_post_load` while `1` stays in `0._lneed`, so the
biconditional no longer holds after that removal. -/
theorem edge_inverse_counterexample :
    EdgeInv (addLoadDep emptyGraph 0 1) ∧
    isOk (run 30 (addLoadDep emptyGraph 0 1) (.load 0)) = true ∧
    (1 ∈ (stateOf (run 30 (addLoadDep emptyGraph 0 1) (.load 0))).lneed 0) ∧
    ¬ EdgeInv (stateOf (run 30 (addLoadDep emptyGraph 0 1) (.load 0))) := by
  refine ⟨?_, by decide, by decide, fun h => absurd (h 0 1) (by decide)⟩
  intro a b
  by_cases ha : a = 0
  · subst ha
    by_cases hb : b = 1
    · subst hb
      constructor
      · intro _
        exact Or.inr (by decide)
      · intro _
        decide
    · constructor
      · intro hmem
        exact absurd hmem (by simp [addLoadDep, emptyGraph, upd, hb])
      · intro hmem
        rcases hmem with hmem | hmem <;>
          simp [addLoadDep, emptyGraph, upd, hb] at hmem
  · constructor
    · intro hmem
      simp [addLoadDep, emptyGraph, upd, ha] at hmem
    · intro hmem
      rcases hmem with hmem | hmem <;>
        simp [addLoadDep, emptyGraph, upd, ha] at hmem

/-! ## `Data.set_final` (C5) -/

/-- Reachability along hard (`_need`) edges only. -/
inductive ReachHard (s : DataGraph) : Nat → Nat → Prop
  | refl (i : Nat) : ReachHard s i i
  | step {i j k : Nat} : j ∈ s.need i → ReachHard s j k → ReachHard s i k

/-- Hard reachability only depends on the `_need` lists. -/
theorem reachHard_congr {s t : DataGraph} {i j : Nat} (h : ReachHard s i j)
    (hneed : s.need = t.need) : ReachHard t i j := by
  induction h with
  | refl i => exact ReachHard.refl i
  | step hmem _ ih => exact ReachHard.step (hneed ▸ hmem) ih

/-- Inversion for hard reachability. -/
theorem reachHard_cases {s : DataGraph} {i y : Nat} (h : ReachHard s i y) :
    y = i ∨ ∃ j, j ∈ s.need i ∧ ReachHard s j y := by
  cases h with
  | refl => exact Or.inl rfl
  | step hmem htail => exact Or.inr ⟨_, hmem, htail⟩

/-- `set_final` does not touch the edge lists or the loaded flags. -/
theorem setFinalGo_frame : ∀ (fuel : Nat) (s : DataGraph)
    (t : Sum Nat (List Nat)) (s' : DataGraph),
    setFinalGo fuel s t = some s' →
    s'.need = s.need ∧ s'.lneed = s.lneed ∧ s'.neededBy = s.neededBy ∧
      s'.loaded = s.loaded := by
  intro fuel
  induction fuel with
  | zero => intro s t s' h; simp [setFinalGo] at h
  | succ fuel ih =>
    intro s t s' h
    cases t with
    | inl i =>
      simp only [setFinalGo] at h
      obtain ⟨h1, h2, h3, h4⟩ := ih _ _ _ h
      exact ⟨h1, h2, h3, h4⟩
    | inr ks =>
      cases ks with
      | nil =>
        simp only [setFinalGo, Option.some.injEq] at h
        subst h
        exact ⟨rfl, rfl, rfl, rfl⟩
      | cons k ks =>
        simp only [setFinalGo] at h
        rcases hm : setFinalGo fuel s (.inl k) with _ | sm <;> rw [hm] at h
        · cases h
        · obtain ⟨h1, h2, h3, h4⟩ := ih _ _ _ hm
          obtain ⟨g1, g2, g3, g4⟩ := ih _ _ _ h
          exact ⟨g1.trans h1, g2.trans h2, g3.trans h3, g4.trans h4⟩

/-- Which nodes `setFinalGo` marks final: exactly the previously final
nodes plus everything hard-reachable from the target(s). -/
theorem setFinalGo_final : ∀ (fuel : Nat) (s : DataGraph)
    (t : Sum Nat (List Nat)) (s' : DataGraph),
    setFinalGo fuel s t = some s' →
    ∀ y, s'.final y = true ↔ (s.final y = true ∨
      (match t with
       | .inl i => ReachHard s i y
       | .inr ks => ∃ k ∈ ks, ReachHard s k y)) := by
  intro fuel
  induction fuel with
  | zero => intro s t s' h; simp [setFinalGo] at h
  | succ fuel ih =>
    intro s t s' h
    cases t with
    | inl i =>
      intro y
      have hy := ih _ _ _ h y
      have hframe := setFinalGo_frame _ _ _ _ h
      rw [hy]
      have hupd : ({ s with final := upd s.final i true } : DataGraph).final y =
          true ↔ (y = i ∨ s.final y = true) := by
        simp only [upd]
        split
        · next hyi => simp [hyi]
        · next hyi => simp [hyi]
      rw [hupd]
      constructor
      · rintro ((rfl | hfin) | ⟨k, hk, hreach⟩)
        · exact Or.inr (ReachHard.refl y)
        · exact Or.inl hfin
        · exact Or.inr (ReachHard.step hk (reachHard_congr hreach rfl))
      · rintro (hfin | hreach)
        · exact Or.inl (Or.inr hfin)
        · rcases reachHard_cases hreach with rfl | ⟨j, hj, hreach'⟩
          · exact Or.inl (Or.inl rfl)
          · exact Or.inr ⟨j, hj, reachHard_congr hreach' rfl⟩
    | inr ks =>
      cases ks with
      | nil =>
        simp only [setFinalGo, Option.some.injEq] at h
        subst h
        simp
      | cons k ks =>
        simp only [setFinalGo] at h
        rcases hm : setFinalGo fuel s (.inl k) with _ | sm <;> rw [hm] at h
        · cases h
        · intro y
          have hneed : sm.need = s.need := (setFinalGo_frame _ _ _ _ hm).1
          have h1 := ih _ _ _ hm y
          have h2 := ih _ _ _ h y
          rw [h2, h1]
          constructor
          · rintro ((hfin | hreach) | ⟨k', hk', hreach⟩)
            · exact Or.inl hfin
            · exact Or.inr ⟨k, List.mem_cons_self k ks, hreach⟩
            · exact Or.inr ⟨k', List.mem_cons_of_mem k hk',
                reachHard_congr hreach hneed⟩
          · rintro (hfin | ⟨k', hk', hreach⟩)
            · exact Or.inl (Or.inl hfin)
            · rcases List.mem_cons.mp hk' with rfl | hk'
              · exact Or.inl (Or.inr hreach)
              · exact Or.inr ⟨k', hk', reachHard_congr hreach hneed.symm⟩

/-- C5: `set_final()` on `x` sets `_is_final` on `x` and on every node
hard-reachable from `x` (through `_need` edges, transitively), and on no
other node: a node reachable only through load-only edges keeps its old
flag.  Consequently `is_final x` implies `is_final y` for every `y` in
`hard_deps*(x)` after the call. -/
theorem setFinal_spec (fuel : Nat) (s : DataGraph) (x : Nat)
    (s' : DataGraph) (h : setFinal fuel s x = some s') :
    (∀ y, s'.final y = true ↔ (s.final y = true ∨ ReachHard s x y)) ∧
    (∀ y, ¬ ReachHard s x y → s'.final y = s.final y) ∧
    s'.final x = true ∧
    (∀ y, ReachHard s x y → s'.final y = true) := by
  have hiff := setFinalGo_final _ _ _ _ h
  refine ⟨hiff, ?_, ?_, ?_⟩
  · intro y hnr
    have := hiff y
    cases hy : s'.final y with
    | true =>
      rcases this.mp hy with hfin | hreach
      · exact hfin.symm
      · exact absurd hreach hnr
    | false =>
      cases hsy : s.final y with
      | true => exact absurd ((this.mpr (Or.inl hsy)).symm.trans hy) (by simp)
      | false => rfl
  · exact (hiff x).mpr (Or.inr (ReachHard.refl x))
  · intro y hr
    exact (hiff y).mpr (Or.inr hr)

/-- Demonstration graph for C5: `0` hard-needs `1` and load-needs `2`. -/
def finalDemoGraph : DataGraph :=
  { need := fun j => if j = 0 then [1] else []
    lneed := fun j => if j = 0 then [2] else []
    neededBy := fun j => if j = 1 then [0] else if j = 2 then [0] else []
    final := fun _ => false
    loaded := fun _ => false }

/-- Witness for C5: `set_final` on `0` marks `0` and its hard dependency
`1`, but not its load-only dependency `2`. -/
theorem setFinal_spec_witness :
    ∃ s', setFinal 10 finalDemoGraph 0 = some s' ∧
      s'.final 0 = true ∧ s'.final 1 = true ∧ s'.final 2 = false := by
  refine ⟨_, rfl, ?_, ?_, ?_⟩
  all_goals
    have h := setFinal_spec 10 finalDemoGraph 0 _ rfl
  · exact h.2.2.1
  · exact h.2.2.2 1 (ReachHard.step (by decide) (ReachHard.refl 1))
  · rw [h.2.1 2 ?_]
    · rfl
    · intro hr
      rcases reachHard_cases hr with h02 | ⟨j, hj, hr'⟩
      · cases h02
      · have hj1 : j = 1 := by
          simpa [finalDemoGraph] using hj
        subst hj1
        rcases reachHard_cases hr' with h12 | ⟨j', hj', _⟩
        · cases h12
        · simp [finalDemoGraph] at hj'

/-! ## Frame properties of the emission pass

During `load`/`unload` emission the code never touches `_need`, `_lneed`
or `_is_final`, and only ever removes elements from `_needed_by`. -/

/-- `s'` is an emission-time evolution of `s`: the edge lists and finality
are untouched and every `_needed_by` list only shrank. -/
def FrameOK (s s' : DataGraph) : Prop :=
  s'.need = s.need ∧ s'.lneed = s.lneed ∧ s'.final = s.final ∧
    ∀ j, (s'.neededBy j).Sublist (s.neededBy j)

theorem frameOK_refl (s : DataGraph) : FrameOK s s :=
  ⟨rfl, rfl, rfl, fun _ => List.Sublist.refl _⟩

theorem frameOK_trans {s t u : DataGraph} (h1 : FrameOK s t)
    (h2 : FrameOK t u) : FrameOK s u :=
  ⟨h2.1.trans h1.1, h2.2.1.trans h1.2.1, h2.2.2.1.trans h1.2.2.1,
    fun j => (h2.2.2.2 j).trans (h1.2.2.2 j)⟩

theorem frameOK_loaded {s : DataGraph} {f : Nat → Bool} :
    FrameOK s { s with loaded := f } :=
  ⟨rfl, rfl, rfl, fun _ => List.Sublist.refl _⟩

theorem frameOK_eraseNB {s : DataGraph} {k i : Nat} :
    FrameOK s
      { s with neededBy := upd s.neededBy k ((s.neededBy k).erase i) } := by
  refine ⟨rfl, rfl, rfl, fun j => ?_⟩
  by_cases hj : j = k
  · subst hj
    simp only [upd, if_pos rfl]
    exact List.erase_sublist _ _
  · simp only [upd, if_neg hj]
    exact List.Sublist.refl _

/-- The frame property, stated over a result. -/
def ResFrame (s : DataGraph) : Res → Prop
  | .ok s' _ => FrameOK s s'
  | .exc _ s' _ => FrameOK s s'
  | .noFuel => True

theorem resFrame_withOut {s : DataGraph} {o : List Ev} {r : Res}
    (h : ResFrame s r) : ResFrame s (Res.withOut o r) := by
  cases r <;> simpa [Res.withOut] using h

/-- Every emission step satisfies the frame property: `_need`, `_lneed`,
`_is_final` are constant and `_needed_by` only shrinks, whether the step
returns normally or raises. -/
theorem run_frame : ∀ (fuel : Nat) (s : DataGraph) (c : Call),
    ResFrame s (run fuel s c) := by
  intro fuel
  induction fuel with
  | zero => intro s c; simp [run, ResFrame]
  | succ fuel ih =>
    intro s c
    cases c with
    | load i =>
      simp only [run]
      split
      · exact frameOK_refl s
      · have h1 := ih { s with loaded := upd s.loaded i true }
          (.loadSeq (s.need i ++ s.lneed i))
        cases hr : run fuel { s with loaded := upd s.loaded i true }
            (.loadSeq (s.need i ++ s.lneed i)) with
        | ok s2 o2 =>
          rw [hr] at h1
          dsimp only
          have h2 := ih s2 (.postLoad i)
          cases hr2 : run fuel s2 (.postLoad i) with
          | ok s3 o3 =>
            rw [hr2] at h2
            simp only [Res.withOut, ResFrame]
            exact frameOK_trans frameOK_loaded (frameOK_trans h1 h2)
          | exc e s3 o3 =>
            rw [hr2] at h2
            simp only [Res.withOut, ResFrame]
            exact frameOK_trans frameOK_loaded (frameOK_trans h1 h2)
          | noFuel => simp [Res.withOut, ResFrame]
        | exc e s2 o2 =>
          rw [hr] at h1
          dsimp only [ResFrame] at h1 ⊢
          exact frameOK_trans frameOK_loaded h1
        | noFuel => trivial
    | loadSeq ks =>
      cases ks with
      | nil => exact frameOK_refl s
      | cons k ks =>
        simp only [run]
        split
        · exact ih s (.loadSeq ks)
        · have h1 := ih s (.load k)
          cases hr : run fuel s (.load k) with
          | ok s1 o =>
            rw [hr] at h1
            dsimp only [ResFrame] at h1
            dsimp only
            have h2 := ih s1 (.loadSeq ks)
            cases hr2 : run fuel s1 (.loadSeq ks) with
            | ok s2 o2 =>
              rw [hr2] at h2
              simp only [Res.withOut, ResFrame]
              exact frameOK_trans h1 h2
            | exc e s2 o2 =>
              rw [hr2] at h2
              simp only [Res.withOut, ResFrame]
              exact frameOK_trans h1 h2
            | noFuel => simp [Res.withOut, ResFrame]
          | exc e s1 o => rw [hr] at h1; exact h1
          | noFuel => trivial
    | postLoad i =>
      simp only [run]
      have hfirst : ResFrame s
          (if s.final i then Res.ok s [] else run fuel s (.revLoop i 0)) := by
        split
        · exact frameOK_refl s
        · exact ih s (.revLoop i 0)
      cases hr : (if s.final i then Res.ok s []
          else run fuel s (.revLoop i 0)) with
      | ok s1 o1 =>
        rw [hr] at hfirst
        dsimp only [ResFrame] at hfirst
        dsimp only
        have h2 := ih s1 (.release (s1.lneed i) i)
        cases hr2 : run fuel s1 (.release (s1.lneed i) i) with
        | ok s2 o2 =>
          rw [hr2] at h2
          simp only [Res.withOut, ResFrame]
          exact frameOK_trans hfirst h2
        | exc e s2 o2 =>
          rw [hr2] at h2
          simp only [Res.withOut, ResFrame]
          exact frameOK_trans hfirst h2
        | noFuel => simp [Res.withOut, ResFrame]
      | exc e s1 o1 => rw [hr] at hfirst; exact hfirst
      | noFuel => trivial
    | revLoop i idx =>
      simp only [run]
      split
      · split
        · exact ih s (.revLoop i (idx + 1))
        · have h1 := ih s (.load ((s.neededBy i).get ⟨idx, by assumption⟩))
          cases hr : run fuel s
              (.load ((s.neededBy i).get ⟨idx, by assumption⟩)) with
          | ok s1 o =>
            rw [hr] at h1
            dsimp only [ResFrame] at h1
            dsimp only
            have h2 := ih s1 (.revLoop i (idx + 1))
            cases hr2 : run fuel s1 (.revLoop i (idx + 1)) with
            | ok s2 o2 =>
              rw [hr2] at h2
              simp only [Res.withOut, ResFrame]
              exact frameOK_trans h1 h2
            | exc e s2 o2 =>
              rw [hr2] at h2
              simp only [Res.withOut, ResFrame]
              exact frameOK_trans h1 h2
            | noFuel => simp [Res.withOut, ResFrame]
          | exc e s1 o => rw [hr] at h1; exact h1
          | noFuel => trivial
      · exact frameOK_refl s
    | release ks i =>
      cases ks with
      | nil => exact frameOK_refl s
      | cons k ks =>
        simp only [run]
        cases hnb : pyRemove (s.neededBy k) i with
        | none => exact frameOK_refl s
        | some nb =>
          have hnb' : nb = (s.neededBy k).erase i := by
            unfold pyRemove at hnb
            split at hnb
            · exact (Option.some.injEq _ _ ▸ hnb).symm
            · cases hnb
          have hstep : FrameOK s { s with neededBy := upd s.neededBy k nb } := by
            rw [hnb']
            exact frameOK_eraseNB
          dsimp only
          split
          · have h1 := ih { s with neededBy := upd s.neededBy k nb } (.unload k)
            cases hr : run fuel { s with neededBy := upd s.neededBy k nb }
                (.unload k) with
            | ok s1 o =>
              rw [hr] at h1
              dsimp only [ResFrame] at h1
              dsimp only
              have h2 := ih s1 (.release ks i)
              cases hr2 : run fuel s1 (.release ks i) with
              | ok s2 o2 =>
                rw [hr2] at h2
                simp only [Res.withOut, ResFrame]
                exact frameOK_trans hstep (frameOK_trans h1 h2)
              | exc e s2 o2 =>
                rw [hr2] at h2
                simp only [Res.withOut, ResFrame]
                exact frameOK_trans hstep (frameOK_trans h1 h2)
              | noFuel => simp [Res.withOut, ResFrame]
            | exc e s1 o =>
              rw [hr] at h1
              dsimp only [ResFrame] at h1 ⊢
              exact frameOK_trans hstep h1
            | noFuel => trivial
          · have h1 := ih { s with neededBy := upd s.neededBy k nb }
              (.release ks i)
            cases hr : run fuel { s with neededBy := upd s.neededBy k nb }
                (.release ks i) with
            | ok s1 o =>
              rw [hr] at h1
              dsimp only [ResFrame] at h1 ⊢
              exact frameOK_trans hstep h1
            | exc e s1 o =>
              rw [hr] at h1
              dsimp only [ResFrame] at h1 ⊢
              exact frameOK_trans hstep h1
            | noFuel => trivial
    | unload i =>
      simp only [run]
      split
      · split
        · exact frameOK_refl s
        · have h1 := ih s (.release (s.need i) i)
          cases hr : run fuel s (.release (s.need i) i) with
          | ok s1 o =>
            rw [hr] at h1
            dsimp only [ResFrame] at h1 ⊢
            exact frameOK_trans h1 frameOK_loaded
          | exc e s1 o => rw [hr] at h1; exact h1
          | noFuel => trivial
      · exact frameOK_refl s

/-! ## Edge maintenance (C4) -/

/-- Fields of `add_dep` away from the touched indices. -/
theorem addDep_untouched (s : DataGraph) (x d : Nat) :
    (∀ j, j ≠ x → (addDep s x d).need j = s.need j) ∧
    (∀ j, j ≠ x → (addDep s x d).lneed j = s.lneed j) ∧
    (∀ j, j ≠ d → (addDep s x d).neededBy j = s.neededBy j) ∧
    (addDep s x d).final = s.final ∧ (addDep s x d).loaded = s.loaded := by
  unfold addDep
  dsimp only
  split <;> split <;> split <;>
    refine ⟨fun j hj => ?_, fun j hj => ?_, fun j hj => ?_, rfl, rfl⟩ <;>
      simp [upd, hj]

/-- After `add_dep`, the hard edge is present. -/
theorem addDep_mem_need (s : DataGraph) (x d : Nat) :
    d ∈ (addDep s x d).need x := by
  unfold addDep
  dsimp only
  split <;> rename_i h1 <;> split <;> rename_i h2 <;> split <;>
    simp_all [upd]

/-- After `add_dep`, the back edge is present. -/
theorem addDep_mem_neededBy (s : DataGraph) (x d : Nat) :
    x ∈ (addDep s x d).neededBy d := by
  unfold addDep
  dsimp only
  split <;> split <;> split <;> rename_i h3 <;> simp_all [upd]

/-- Membership in `add_dep`'s touched lists, for other elements. -/
theorem addDep_mem_other (s : DataGraph) (x d : Nat) :
    (∀ b, b ≠ d → (b ∈ (addDep s x d).need x ↔ b ∈ s.need x)) ∧
    (∀ b, b ≠ d → (b ∈ (addDep s x d).lneed x ↔ b ∈ s.lneed x)) ∧
    (∀ a, a ≠ x → (a ∈ (addDep s x d).neededBy d ↔ a ∈ s.neededBy d)) := by
  unfold addDep
  dsimp only
  split <;> split <;> split <;>
    refine ⟨fun b hb => ?_, fun b hb => ?_, fun a ha => ?_⟩ <;>
      simp_all [upd, List.mem_erase_of_ne, List.mem_append]

/-- Fields of `add_load_dep` away from the touched indices; `_need` is
never touched at all. -/
theorem addLoadDep_untouched (s : DataGraph) (x d : Nat) :
    (addLoadDep s x d).need = s.need ∧
    (∀ j, j ≠ x → (addLoadDep s x d).lneed j = s.lneed j) ∧
    (∀ j, j ≠ d → (addLoadDep s x d).neededBy j = s.neededBy j) ∧
    (addLoadDep s x d).final = s.final ∧
    (addLoadDep s x d).loaded = s.loaded := by
  unfold addLoadDep
  dsimp only
  split <;> split <;>
    refine ⟨rfl, fun j hj => ?_, fun j hj => ?_, rfl, rfl⟩ <;>
      simp [upd, hj]

/-- After `add_load_dep`, the dependency is in `_lneed` or `_need`. -/
theorem addLoadDep_mem_dep (s : DataGraph) (x d : Nat) :
    d ∈ (addLoadDep s x d).need x ∨ d ∈ (addLoadDep s x d).lneed x := by
  unfold addLoadDep
  dsimp only
  split <;> rename_i h1 <;> split <;> rename_i h2
  · right; simp [upd]
  · right; simp [upd]
  all_goals
    rw [not_and_or, not_not, not_not] at h1
    rcases h1 with h1 | h1
    · right; simpa [upd] using h1
    · left; simpa [upd] using h1

/-- After `add_load_dep`, the back edge is present. -/
theorem addLoadDep_mem_neededBy (s : DataGraph) (x d : Nat) :
    x ∈ (addLoadDep s x d).neededBy d := by
  unfold addLoadDep
  dsimp only
  split <;> split <;> rename_i h2 <;> simp_all [upd]

/-- Membership in `add_load_dep`'s touched lists, for other elements. -/
theorem addLoadDep_mem_other (s : DataGraph) (x d : Nat) :
    (∀ b, b ≠ d → (b ∈ (addLoadDep s x d).lneed x ↔ b ∈ s.lneed x)) ∧
    (∀ a, a ≠ x → (a ∈ (addLoadDep s x d).neededBy d ↔ a ∈ s.neededBy d)) := by
  unfold addLoadDep
  dsimp only
  split <;> split <;>
    refine ⟨fun b hb => ?_, fun a ha => ?_⟩ <;>
      simp_all [upd, List.mem_append]

/-- `add_dep` maintains the `_needed_by` biconditional (I2). -/
theorem addDep_edgeInv {s : DataGraph} (hs : EdgeInv s) (x d : Nat) :
    EdgeInv (addDep s x d) := by
  intro a b
  by_cases hax : a = x
  · subst hax
    by_cases hbd : b = d
    · subst hbd
      exact iff_of_true (addDep_mem_neededBy s a b)
        (Or.inl (addDep_mem_need s a b))
    · rw [(addDep_untouched s a d).2.2.1 b hbd,
        (addDep_mem_other s a d).1 b hbd, (addDep_mem_other s a d).2.1 b hbd]
      exact hs a b
  · by_cases hbd : b = d
    · subst hbd
      rw [(addDep_mem_other s x b).2.2 a hax,
        (addDep_untouched s x b).1 a hax, (addDep_untouched s x b).2.1 a hax]
      exact hs a b
    · rw [(addDep_untouched s x d).2.2.1 b hbd,
        (addDep_untouched s x d).1 a hax, (addDep_untouched s x d).2.1 a hax]
      exact hs a b

/-- `add_load_dep` maintains the `_needed_by` biconditional (I2). -/
theorem addLoadDep_edgeInv {s : DataGraph} (hs : EdgeInv s) (x d : Nat) :
    EdgeInv (addLoadDep s x d) := by
  intro a b
  by_cases hax : a = x
  · subst hax
    by_cases hbd : b = d
    · subst hbd
      exact iff_of_true (addLoadDep_mem_neededBy s a b)
        ((addLoadDep_mem_dep s a b).symm.imp id id |>.elim Or.inr Or.inl)
    · rw [(addLoadDep_untouched s a d).2.2.1 b hbd,
        (addLoadDep_untouched s a d).1,
        (addLoadDep_mem_other s a d).1 b hbd]
      exact hs a b
  · by_cases hbd : b = d
    · subst hbd
      rw [(addLoadDep_mem_other s x b).2 a hax,
        (addLoadDep_untouched s x b).1,
        (addLoadDep_untouched s x b).2.1 a hax]
      exact hs a b
    · rw [(addLoadDep_untouched s x d).2.2.1 b hbd,
        (addLoadDep_untouched s x d).1,
        (addLoadDep_untouched s x d).2.1 a hax]
      exact hs a b

/-- C4 (amended): every edge addition (`add_dep`, `add_load_dep`,
including the promotion of a load edge to a hard edge) maintains the full
biconditional `A ∈ B.reverse_deps ↔ B ∈ A.hard_deps ∪ A.load_deps`; the
removals performed on `_needed_by` during load and unload emission preserve
only the forward inclusion (every `_needed_by` entry is a real inverse
edge) — the biconditional itself is broken by `_post_load`, which removes
the loader from a load-dependency's `_needed_by` while the `_lneed` edge
remains. -/
theorem edge_inverse_spec :
    (∀ s x d, EdgeInv s → EdgeInv (addDep s x d)) ∧
    (∀ s x d, EdgeInv s → EdgeInv (addLoadDep s x d)) ∧
    (∀ s, EdgeInv s → EdgeInvSub s) ∧
    (∀ fuel s c s' out e, EdgeInvSub s →
      (run fuel s c = .ok s' out ∨ run fuel s c = .exc e s' out) →
      EdgeInvSub s') := by
  refine ⟨fun s x d hs => addDep_edgeInv hs x d,
    fun s x d hs => addLoadDep_edgeInv hs x d,
    fun s hs a b hab => (hs a b).mp hab,
    fun fuel s c s' out e hs h => ?_⟩
  have hf := run_frame fuel s c
  have hfr : FrameOK s s' := by
    rcases h with h | h <;> rw [h] at hf <;> exact hf
  intro a b hab
  have hab' : a ∈ s.neededBy b := (hfr.2.2.2 b).subset hab
  rw [hfr.1, hfr.2.1]
  exact hs a b hab'

/-- Witness for C4 (amended) at concrete inputs: building the two-node
load-edge graph maintains I2, and the forward inclusion survives the
emission pass that breaks the biconditional. -/
theorem edge_inverse_spec_witness :
    EdgeInv emptyGraph ∧
    EdgeInv (addLoadDep emptyGraph 0 1) ∧
    (run 30 (addLoadDep emptyGraph 0 1) (.load 0) =
        .ok (stateOf (run 30 (addLoadDep emptyGraph 0 1) (.load 0)))
          (outOf (run 30 (addLoadDep emptyGraph 0 1) (.load 0))) ∨
      run 30 (addLoadDep emptyGraph 0 1) (.load 0) =
        .exc .dataError (stateOf (run 30 (addLoadDep emptyGraph 0 1) (.load 0)))
          (outOf (run 30 (addLoadDep emptyGraph 0 1) (.load 0)))) ∧
    EdgeInvSub (stateOf (run 30 (addLoadDep emptyGraph 0 1) (.load 0))) := by
  have hempty : EdgeInv emptyGraph := by
    intro a b
    simp [emptyGraph]
  have hinv : EdgeInv (addLoadDep emptyGraph 0 1) :=
    edge_inverse_spec.2.1 emptyGraph 0 1 hempty
  have hres : run 30 (addLoadDep emptyGraph 0 1) (.load 0) =
      .ok (stateOf (run 30 (addLoadDep emptyGraph 0 1) (.load 0)))
        (outOf (run 30 (addLoadDep emptyGraph 0 1) (.load 0))) := by rfl
  exact ⟨hempty, hinv, Or.inl hres,
    edge_inverse_spec.2.2.2 30 _ _ _ _ Exc.dataError
      (edge_inverse_spec.2.2.1 _ hinv) (Or.inl hres)⟩

/-! ## Unload ordering along hard edges (C2) -/

theorem precedes_nil {a b : Ev} : precedes a b [] := by
  intro o1 o2 h
  exact absurd h.symm (List.append_ne_nil_of_right_ne_nil o1 (by simp))

theorem precedes_cons_self {a b : Ev} (hne : a ≠ b) (out : List Ev) :
    precedes a b (a :: out) := by
  intro o1 o2 h
  cases o1 with
  | nil =>
    rw [List.nil_append] at h
    exact absurd (List.head_eq_of_cons_eq h) hne
  | cons x o1' =>
    rw [List.cons_append] at h
    rw [List.head_eq_of_cons_eq h]
    exact List.mem_cons_self x o1'

theorem precedes_cons_of {a b x : Ev} (hx : x ≠ b) {out : List Ev}
    (h : precedes a b out) : precedes a b (x :: out) := by
  intro o1 o2 heq
  cases o1 with
  | nil =>
    rw [List.nil_append] at heq
    exact absurd (List.head_eq_of_cons_eq heq) hx
  | cons y o1' =>
    rw [List.cons_append] at heq
    exact List.mem_cons_of_mem y (h o1' o2 (List.tail_eq_of_cons_eq heq))

theorem precedes_tail {a b x : Ev} {out : List Ev} (hax : a ≠ x)
    (h : precedes a b (x :: out)) : precedes a b out := by
  intro o1 o2 heq
  have := h (x :: o1) o2 (by rw [heq, List.cons_append])
  rcases List.mem_cons.mp this with h' | h'
  · exact absurd h' hax
  · exact h'

theorem precedes_append {a b : Ev} {oa ob : List Ev}
    (ha : precedes a b oa) (h2 : a ∈ oa ∨ precedes a b ob) :
    precedes a b (oa ++ ob) := by
  induction oa with
  | nil =>
    rcases h2 with h2 | h2
    · simp at h2
    · simpa using h2
  | cons x oa' ih =>
    intro o1 o2 heq
    cases o1 with
    | nil =>
      rw [List.nil_append] at heq
      have hx : x = b := List.head_eq_of_cons_eq heq
      have := ha [] oa' (by rw [hx]; rfl)
      simp at this
    | cons y o1' =>
      rw [List.cons_append, List.cons_append] at heq
      have hyx : y = x := (List.head_eq_of_cons_eq heq).symm
      subst hyx
      by_cases hay : a = y
      · subst hay
        exact List.mem_cons_self a o1'
      · have ha' : precedes a b oa' := precedes_tail hay ha
        have h2' : a ∈ oa' ∨ precedes a b ob := by
          rcases h2 with h2 | h2
          · rcases List.mem_cons.mp h2 with h2 | h2
            · exact absurd h2 hay
            · exact Or.inl h2
          · exact Or.inr h2
        exact List.mem_cons_of_mem y
          (ih ha' h2' o1' o2 (List.tail_eq_of_cons_eq heq))

theorem ev_unload_ne {A B : Nat} (h : A ≠ B) :
    Ev.unload A ≠ Ev.unload B := fun he => h (Ev.unload.inj he)

theorem ev_load_ne_unload (i B : Nat) : Ev.load i ≠ Ev.unload B :=
  fun he => Ev.noConfusion he

/-- Extract the frame property from a known result. -/
theorem run_frame_of {fuel : Nat} {s : DataGraph} {c : Call}
    {s' : DataGraph} {out : List Ev} {e : Exc}
    (h : run fuel s c = .ok s' out ∨ run fuel s c = .exc e s' out) :
    FrameOK s s' := by
  have hf := run_frame fuel s c
  rcases h with h | h <;> rw [h] at hf <;> exact hf

/-- The unload-ordering property of a result, for a hard edge `A → B`:
either `A` is still registered in `B._needed_by`, or `A`'s unload fragment
has been written; and every occurrence of `B`'s unload fragment is
preceded by one of `A`'s. -/
def UnloadOrder (A B : Nat) : Res → Prop
  | .ok s' out => (A ∈ s'.neededBy B ∨ Ev.unload A ∈ out) ∧
      precedes (Ev.unload A) (Ev.unload B) out
  | .exc _ s' out => (A ∈ s'.neededBy B ∨ Ev.unload A ∈ out) ∧
      precedes (Ev.unload A) (Ev.unload B) out
  | .noFuel => True

/-- Sequential composition of the unload-ordering property: a first piece
already emitted `o1` ending in state `sm`; the rest holds provided `A` is
still registered when it starts. -/
theorem unloadOrder_seq {A B : Nat} {sm : DataGraph} {o1 : List Ev} {r : Res}
    (h1l : A ∈ sm.neededBy B ∨ Ev.unload A ∈ o1)
    (h1p : precedes (Ev.unload A) (Ev.unload B) o1)
    (h2 : A ∈ sm.neededBy B → UnloadOrder A B r) :
    UnloadOrder A B (Res.withOut o1 r) := by
  cases r with
  | ok s2 o2 =>
    simp only [Res.withOut, UnloadOrder]
    rcases h1l with hin | hev
    · obtain ⟨h2l, h2p⟩ := h2 hin
      constructor
      · rcases h2l with h2l | h2l
        · exact Or.inl h2l
        · exact Or.inr (List.mem_append_right o1 h2l)
      · exact precedes_append h1p (Or.inr h2p)
    · exact ⟨Or.inr (List.mem_append_left o2 hev),
        precedes_append h1p (Or.inl hev)⟩
  | exc e s2 o2 =>
    simp only [Res.withOut, UnloadOrder]
    rcases h1l with hin | hev
    · obtain ⟨h2l, h2p⟩ := h2 hin
      constructor
      · rcases h2l with h2l | h2l
        · exact Or.inl h2l
        · exact Or.inr (List.mem_append_right o1 h2l)
      · exact precedes_append h1p (Or.inr h2p)
    · exact ⟨Or.inr (List.mem_append_left o2 hev),
        precedes_append h1p (Or.inl hev)⟩
  | noFuel => trivial

/-- Successful `pyRemove` means the element was present and got erased. -/
theorem pyRemove_eq {l : List Nat} {x : Nat} {nb : List Nat}
    (h : pyRemove l x = some nb) : nb = l.erase x ∧ x ∈ l := by
  unfold pyRemove at h
  split at h
  · exact ⟨(Option.some.inj h).symm, by assumption⟩
  · cases h

/-- Unload ordering along a hard edge `A → B` (`B ∈ A._need`,
`B ∉ A._lneed`, `A ∈ B._needed_by`): throughout the emission pass, either
`A` stays registered in `B._needed_by` or `A`'s unload fragment has been
written, and every occurrence of `B`'s unload fragment in the stream is
preceded by an occurrence of `A`'s — `B` can only be unloaded once every
hard dependent released it, which happens in `A._post_unload`, after `A`'s
own unload fragment.  The `release` restriction excludes only the one call
shape that cannot arise for a hard edge (`A` releasing a `_lneed` list
containing `B`). -/
theorem run_unload_order : ∀ (fuel : Nat) (s : DataGraph) (c : Call)
    (A B : Nat), A ≠ B → B ∈ s.need A → B ∉ s.lneed A →
    (∀ ks i, c = .release ks i → i = A → B ∉ ks) →
    A ∈ s.neededBy B →
    UnloadOrder A B (run fuel s c) := by
  intro fuel
  induction fuel with
  | zero => intro s c A B _ _ _ _ _; simp [run, UnloadOrder]
  | succ fuel ih =>
    intro s c A B hAB hBneed hBlneed hrestr hAin
    cases c with
    | load i =>
      simp only [run]
      split
      · exact ⟨Or.inl hAin, precedes_nil⟩
      · cases hr : run fuel { s with loaded := upd s.loaded i true }
            (.loadSeq (s.need i ++ s.lneed i)) with
        | ok s2 o2 =>
          dsimp only
          have h1 := ih { s with loaded := upd s.loaded i true }
            (.loadSeq (s.need i ++ s.lneed i)) A B hAB hBneed hBlneed
            (fun ks j h => nomatch h) hAin
          rw [hr] at h1
          obtain ⟨h1l, h1p⟩ := h1
          have hf : FrameOK { s with loaded := upd s.loaded i true } s2 :=
            run_frame_of (e := Exc.dataError) (Or.inl hr)
          refine unloadOrder_seq ?_ ?_
            (fun hin => ih s2 (.postLoad i) A B hAB (by rw [hf.1]; exact hBneed)
              (by rw [hf.2.1]; exact hBlneed) (fun ks j h => nomatch h) hin)
          · rcases h1l with h | h
            · exact Or.inl h
            · exact Or.inr (List.mem_append_left _ h)
          · exact precedes_append h1p
              (Or.inr (precedes_cons_of (ev_load_ne_unload i B) precedes_nil))
        | exc e s2 o2 =>
          dsimp only
          have h1 := ih { s with loaded := upd s.loaded i true }
            (.loadSeq (s.need i ++ s.lneed i)) A B hAB hBneed hBlneed
            (fun ks j h => nomatch h) hAin
          rw [hr] at h1
          exact h1
        | noFuel => trivial
    | loadSeq ks =>
      cases ks with
      | nil => exact ⟨Or.inl hAin, precedes_nil⟩
      | cons k ks =>
        simp only [run]
        split
        · exact ih s (.loadSeq ks) A B hAB hBneed hBlneed
            (fun ks j h => nomatch h) hAin
        · cases hr : run fuel s (.load k) with
          | ok s1 o =>
            dsimp only
            have h1 := ih s (.load k) A B hAB hBneed hBlneed
              (fun ks j h => nomatch h) hAin
            rw [hr] at h1
            obtain ⟨h1l, h1p⟩ := h1
            have hf : FrameOK s s1 :=
              run_frame_of (e := Exc.dataError) (Or.inl hr)
            exact unloadOrder_seq h1l h1p
              (fun hin => ih s1 (.loadSeq ks) A B hAB
                (by rw [hf.1]; exact hBneed) (by rw [hf.2.1]; exact hBlneed)
                (fun ks j h => nomatch h) hin)
          | exc e s1 o =>
            have h1 := ih s (.load k) A B hAB hBneed hBlneed
              (fun ks j h => nomatch h) hAin
            rw [hr] at h1
            exact h1
          | noFuel => trivial
    | postLoad i =>
      simp only [run]
      cases hr : (if s.final i then Res.ok s []
          else run fuel s (.revLoop i 0)) with
      | ok s1 o1 =>
        dsimp only
        have h1 : UnloadOrder A B (Res.ok s1 o1) := by
          rw [← hr]
          split
          · exact ⟨Or.inl hAin, precedes_nil⟩
          · exact ih s (.revLoop i 0) A B hAB hBneed hBlneed
              (fun ks j h => nomatch h) hAin
        obtain ⟨h1l, h1p⟩ := h1
        have hf : FrameOK s s1 := by
          by_cases hfin : s.final i
          · rw [if_pos hfin] at hr
            cases hr
            exact frameOK_refl s
          · rw [if_neg hfin] at hr
            exact run_frame_of (e := Exc.dataError) (Or.inl hr)
        refine unloadOrder_seq h1l h1p
          (fun hin => ih s1 (.release (s1.lneed i) i) A B hAB
            (by rw [hf.1]; exact hBneed) (by rw [hf.2.1]; exact hBlneed)
            ?_ hin)
        intro ks j hc hjA
        cases hc
        subst hjA
        rw [hf.2.1]
        exact hBlneed
      | exc e1 s1 o1 =>
        dsimp only
        have h1 : UnloadOrder A B (Res.exc e1 s1 o1) := by
          rw [← hr]
          split
          · exact ⟨Or.inl hAin, precedes_nil⟩
          · exact ih s (.revLoop i 0) A B hAB hBneed hBlneed
              (fun ks j h => nomatch h) hAin
        exact h1
      | noFuel => trivial
    | revLoop i idx =>
      simp only [run]
      split
      · rename_i hlt
        split
        · exact ih s (.revLoop i (idx + 1)) A B hAB hBneed hBlneed
            (fun ks j h => nomatch h) hAin
        · cases hr : run fuel s
              (.load ((s.neededBy i).get ⟨idx, hlt⟩)) with
          | ok s1 o =>
            dsimp only
            have h1 := ih s (.load ((s.neededBy i).get ⟨idx, hlt⟩))
              A B hAB hBneed hBlneed (fun ks j h => nomatch h) hAin
            rw [hr] at h1
            obtain ⟨h1l, h1p⟩ := h1
            have hf : FrameOK s s1 :=
              run_frame_of (e := Exc.dataError) (Or.inl hr)
            exact unloadOrder_seq h1l h1p
              (fun hin => ih s1 (.revLoop i (idx + 1)) A B hAB
                (by rw [hf.1]; exact hBneed) (by rw [hf.2.1]; exact hBlneed)
                (fun ks j h => nomatch h) hin)
          | exc e s1 o =>
            have h1 := ih s (.load ((s.neededBy i).get ⟨idx, hlt⟩))
              A B hAB hBneed hBlneed (fun ks j h => nomatch h) hAin
            rw [hr] at h1
            exact h1
          | noFuel => trivial
      · exact ⟨Or.inl hAin, precedes_nil⟩
    | release ks i =>
      cases ks with
      | nil => exact ⟨Or.inl hAin, precedes_nil⟩
      | cons k ks =>
        have hresk : i = A → B ∉ k :: ks := fun h => hrestr (k :: ks) i rfl h
        simp only [run]
        cases hnb : pyRemove (s.neededBy k) i with
        | none => exact ⟨Or.inl hAin, precedes_nil⟩
        | some nb =>
          dsimp only
          obtain ⟨hnb', _⟩ := pyRemove_eq hnb
          have hAin1 : A ∈
              ({ s with neededBy := upd s.neededBy k nb } : DataGraph).neededBy
                B := by
            show A ∈ upd s.neededBy k nb B
            by_cases hkB : B = k
            · subst hkB
              have hiA : i ≠ A := by
                intro h
                exact (hresk h) (List.mem_cons_self B ks)
              simp only [upd, if_pos rfl]
              rw [hnb']
              exact (List.mem_erase_of_ne (fun h => hiA h.symm)).mpr hAin
            · simp only [upd, if_neg hkB]
              exact hAin
          split
          · cases hr : run fuel { s with neededBy := upd s.neededBy k nb }
                (.unload k) with
            | ok s1 o =>
              dsimp only
              have h1 := ih { s with neededBy := upd s.neededBy k nb }
                (.unload k) A B hAB hBneed hBlneed (fun ks j h => nomatch h)
                hAin1
              rw [hr] at h1
              obtain ⟨h1l, h1p⟩ := h1
              have hf : FrameOK { s with neededBy := upd s.neededBy k nb } s1 :=
                run_frame_of (e := Exc.dataError) (Or.inl hr)
              exact unloadOrder_seq h1l h1p
                (fun hin => ih s1 (.release ks i) A B hAB
                  (by rw [hf.1]; exact hBneed)
                  (by rw [hf.2.1]; exact hBlneed)
                  (fun ks' j hc hjA => by
                    cases hc
                    exact fun hmem => (hresk hjA) (List.mem_cons_of_mem k hmem))
                  hin)
            | exc e s1 o =>
              have h1 := ih { s with neededBy := upd s.neededBy k nb }
                (.unload k) A B hAB hBneed hBlneed (fun ks j h => nomatch h)
                hAin1
              rw [hr] at h1
              exact h1
            | noFuel => trivial
          · exact ih { s with neededBy := upd s.neededBy k nb }
              (.release ks i) A B hAB hBneed hBlneed
              (fun ks' j hc hjA => by
                cases hc
                exact fun hmem => (hresk hjA) (List.mem_cons_of_mem k hmem))
              hAin1
    | unload i =>
      by_cases hiA : i = A
      · subst hiA
        simp only [run]
        split
        · split
          · exact ⟨Or.inl hAin, precedes_nil⟩
          · cases hr : run fuel s (.release (s.need i) i) with
            | ok s1 o =>
              dsimp only
              exact ⟨Or.inr (List.mem_cons_self _ _),
                precedes_cons_self (ev_unload_ne hAB) o⟩
            | exc e s1 o =>
              dsimp only
              exact ⟨Or.inr (List.mem_cons_self _ _),
                precedes_cons_self (ev_unload_ne hAB) o⟩
            | noFuel => trivial
        · exact ⟨Or.inl hAin, precedes_nil⟩
      · simp only [run]
        split
        · split
          · exact ⟨Or.inl hAin, precedes_nil⟩
          · rename_i hguard
            have hiB : i ≠ B := by
              rintro rfl
              rw [not_or, not_not] at hguard
              rw [hguard.2] at hAin
              exact List.not_mem_nil A hAin
            cases hr : run fuel s (.release (s.need i) i) with
            | ok s1 o =>
              dsimp only
              have h1 := ih s (.release (s.need i) i) A B hAB hBneed hBlneed
                (fun ks' j hc hjA => by cases hc; exact absurd hjA hiA) hAin
              rw [hr] at h1
              obtain ⟨h1l, h1p⟩ := h1
              refine ⟨?_, precedes_cons_of (ev_unload_ne hiB) h1p⟩
              rcases h1l with h | h
              · exact Or.inl h
              · exact Or.inr (List.mem_cons_of_mem _ h)
            | exc e s1 o =>
              dsimp only
              have h1 := ih s (.release (s.need i) i) A B hAB hBneed hBlneed
                (fun ks' j hc hjA => by cases hc; exact absurd hjA hiA) hAin
              rw [hr] at h1
              obtain ⟨h1l, h1p⟩ := h1
              refine ⟨?_, precedes_cons_of (ev_unload_ne hiB) h1p⟩
              rcases h1l with h | h
              · exact Or.inl h
              · exact Or.inr (List.mem_cons_of_mem _ h)
            | noFuel => trivial
        · exact ⟨Or.inl hAin, precedes_nil⟩

/-- C2 (amended): for a hard edge `A → B` (`B ∈ A._need`, `B ∉ A._lneed`,
`A ∈ B._needed_by`), in any emission pass every occurrence of `B`'s unload
fragment is preceded in the stream by an occurrence of `A`'s unload
fragment.  The load-ordering half of the original claim — `B`'s load
fragment preceding `A`'s — does not hold in general: `_post_load`'s
reverse-dependency acceleration can load `A` while `B` is still
mid-`_pre_load` (see the counterexample). -/
theorem unload_order_spec (fuel : Nat) (s : DataGraph) (root A B : Nat)
    (hAB : A ≠ B) (hBneed : B ∈ s.need A) (hBlneed : B ∉ s.lneed A)
    (hAin : A ∈ s.neededBy B) (s' : DataGraph) (out : List Ev) (e : Exc)
    (h : run fuel s (.load root) = .ok s' out ∨
      run fuel s (.load root) = .exc e s' out) :
    precedes (Ev.unload A) (Ev.unload B) out := by
  have hord := run_unload_order fuel s (.load root) A B hAB hBneed hBlneed
    (fun ks j hc => nomatch hc) hAin
  rcases h with h | h <;> rw [h] at hord <;> exact hord.2

/-- Witness for C2 (amended): in the `cexReload` pass both node `0` and its
hard dependency `1` emit unload fragments, and `0`'s precedes `1`'s. -/
theorem unload_order_spec_witness :
    (0 : Nat) ≠ 1 ∧ 1 ∈ cexReload.need 0 ∧ 1 ∉ cexReload.lneed 0 ∧
      0 ∈ cexReload.neededBy 1 ∧
      Ev.unload 0 ∈ outOf (run 30 cexReload (.load 0)) ∧
      Ev.unload 1 ∈ outOf (run 30 cexReload (.load 0)) ∧
      precedes (Ev.unload 0) (Ev.unload 1) (outOf (run 30 cexReload (.load 0))) := by
  refine ⟨by decide, by decide, by decide, by decide, by decide, by decide, ?_⟩
  exact unload_order_spec 30 cexReload 0 0 1 (by decide) (by decide) (by decide)
    (by decide) (stateOf (run 30 cexReload (.load 0)))
    (outOf (run 30 cexReload (.load 0))) Exc.dataError (Or.inl rfl)

/-! ## Load coverage of an emission pass (C1) -/

/-- A successful `Data.load` on node `i` writes `i`'s load fragment. -/
theorem load_emits : ∀ (fuel : Nat) (s : DataGraph) (i : Nat)
    (s' : DataGraph) (out : List Ev),
    run fuel s (.load i) = .ok s' out → Ev.load i ∈ out := by
  intro fuel s i s' out h
  cases fuel with
  | zero => simp [run] at h
  | succ fuel =>
    simp only [run] at h
    split at h
    · cases h
    · cases hr : run fuel { s with loaded := upd s.loaded i true }
          (.loadSeq (s.need i ++ s.lneed i)) with
      | ok s2 o2 =>
        rw [hr] at h
        dsimp only at h
        cases hr2 : run fuel s2 (.postLoad i) with
        | ok s3 o3 =>
          rw [hr2] at h
          simp only [Res.withOut] at h
          cases h
          exact List.mem_append_left _
            (List.mem_append_right _ (List.mem_cons_self _ _))
        | exc e s3 o3 =>
          rw [hr2] at h
          simp only [Res.withOut] at h
          cases h
        | noFuel =>
          rw [hr2] at h
          simp only [Res.withOut] at h
          cases h
      | exc e s2 o2 =>
        rw [hr] at h
        dsimp only at h
        cases h
      | noFuel =>
        rw [hr] at h
        dsimp only at h
        cases h

/-- The flag-rise property of a result: on normal completion, every node
whose `_is_loaded` flag rose during the step had its load fragment written
(the flag is only set by a `load` frame, which completes — hence emits —
before the step returns). -/
def LoadedRise (s : DataGraph) : Res → Prop
  | .ok s' out => ∀ j, s.loaded j = false → s'.loaded j = true →
      Ev.load j ∈ out
  | .exc _ _ _ => True
  | .noFuel => True

/-- Sequential composition of the flag-rise property. -/
theorem loadedRise_seq {s sm : DataGraph} {o1 : List Ev} {r : Res}
    (h1 : ∀ j, s.loaded j = false → sm.loaded j = true → Ev.load j ∈ o1)
    (h2 : LoadedRise sm r) :
    LoadedRise s (Res.withOut o1 r) := by
  cases r with
  | ok s2 o2 =>
    intro j hj0 hj1
    by_cases hm : sm.loaded j = true
    · exact List.mem_append_left _ (h1 j hj0 hm)
    · exact List.mem_append_right _ (h2 j (by simpa using hm) hj1)
  | exc e s2 o2 => trivial
  | noFuel => trivial

/-- Every emission step satisfies the flag-rise property. -/
theorem run_loadedRise : ∀ (fuel : Nat) (s : DataGraph) (c : Call),
    LoadedRise s (run fuel s c) := by
  intro fuel
  induction fuel with
  | zero => intro s c; simp [run, LoadedRise]
  | succ fuel ih =>
    intro s c
    cases c with
    | load i =>
      simp only [run]
      split
      · trivial
      · cases hr : run fuel { s with loaded := upd s.loaded i true }
            (.loadSeq (s.need i ++ s.lneed i)) with
        | ok s2 o2 =>
          dsimp only
          have h1 := ih { s with loaded := upd s.loaded i true }
            (.loadSeq (s.need i ++ s.lneed i))
          rw [hr] at h1
          refine loadedRise_seq (fun j hj0 hj2 => ?_) (ih s2 (.postLoad i))
          by_cases hji : j = i
          · subst hji
            exact List.mem_append_right _ (List.mem_cons_self _ _)
          · refine List.mem_append_left _ (h1 j ?_ hj2)
            show upd s.loaded i true j = false
            simp only [upd, if_neg hji]
            exact hj0
        | exc e s2 o2 => dsimp only; trivial
        | noFuel => trivial
    | loadSeq ks =>
      cases ks with
      | nil =>
        intro j hj0 hj1
        rw [hj0] at hj1
        cases hj1
      | cons k ks =>
        simp only [run]
        split
        · exact ih s (.loadSeq ks)
        · cases hr : run fuel s (.load k) with
          | ok s1 o =>
            dsimp only
            have h1 := ih s (.load k)
            rw [hr] at h1
            exact loadedRise_seq h1 (ih s1 (.loadSeq ks))
          | exc e s1 o => dsimp only; trivial
          | noFuel => trivial
    | postLoad i =>
      simp only [run]
      cases hr : (if s.final i then Res.ok s []
          else run fuel s (.revLoop i 0)) with
      | ok s1 o1 =>
        dsimp only
        have h1 : ∀ j, s.loaded j = false → s1.loaded j = true →
            Ev.load j ∈ o1 := by
          by_cases hfin : s.final i
          · rw [if_pos hfin] at hr
            cases hr
            intro j hj0 hj1
            rw [hj0] at hj1
            cases hj1
          · rw [if_neg hfin] at hr
            have := ih s (.revLoop i 0)
            rw [hr] at this
            exact this
        exact loadedRise_seq h1 (ih s1 (.release (s1.lneed i) i))
      | exc e s1 o1 => dsimp only; trivial
      | noFuel => trivial
    | revLoop i idx =>
      simp only [run]
      split
      · rename_i hlt
        split
        · exact ih s (.revLoop i (idx + 1))
        · cases hr : run fuel s (.load ((s.neededBy i).get ⟨idx, hlt⟩)) with
          | ok s1 o =>
            dsimp only
            have h1 := ih s (.load ((s.neededBy i).get ⟨idx, hlt⟩))
            rw [hr] at h1
            exact loadedRise_seq h1 (ih s1 (.revLoop i (idx + 1)))
          | exc e s1 o => dsimp only; trivial
          | noFuel => trivial
      · intro j hj0 hj1
        rw [hj0] at hj1
        cases hj1
    | release ks i =>
      cases ks with
      | nil =>
        intro j hj0 hj1
        rw [hj0] at hj1
        cases hj1
      | cons k ks =>
        simp only [run]
        cases hnb : pyRemove (s.neededBy k) i with
        | none => trivial
        | some nb =>
          dsimp only
          split
          · cases hr : run fuel { s with neededBy := upd s.neededBy k nb }
                (.unload k) with
            | ok s1 o =>
              dsimp only
              have h1 := ih { s with neededBy := upd s.neededBy k nb }
                (.unload k)
              rw [hr] at h1
              exact loadedRise_seq h1 (ih s1 (.release ks i))
            | exc e s1 o => dsimp only; trivial
            | noFuel => trivial
          · cases hrr : run fuel { s with neededBy := upd s.neededBy k nb }
                (.release ks i) with
            | ok s1 o =>
              have h1 := ih { s with neededBy := upd s.neededBy k nb }
                (.release ks i)
              rw [hrr] at h1
              exact h1
            | exc e s1 o => trivial
            | noFuel => trivial
    | unload i =>
      simp only [run]
      split
      · split
        · trivial
        · cases hr : run fuel s (.release (s.need i) i) with
          | ok s1 o =>
            dsimp only
            intro j hj0 hj1
            have hji : ¬ j = i := by
              intro hji
              subst hji
              simp only [upd, if_pos rfl] at hj1
              cases hj1
            simp only [upd, if_neg hji] at hj1
            have h1 := ih s (.release (s.need i) i)
            rw [hr] at h1
            exact List.mem_cons_of_mem _ (h1 j hj0 hj1)
          | exc e s1 o => dsimp only; trivial
          | noFuel => trivial
      · trivial

/-- A two-node chain: node `0` hard-depends on node `1`, inverse list
exact, nothing final or loaded. -/
def chain01 : DataGraph :=
  { need := fun j => if j = 0 then [1] else []
    lneed := fun _ => []
    neededBy := fun j => if j = 1 then [0] else []
    final := fun _ => false
    loaded := fun _ => false }

/-- When the `_pre_load` dependency loop completes, every member of the
snapshot was either already loaded or had its load fragment written. -/
theorem run_seqLoads : ∀ (fuel : Nat) (s : DataGraph) (ks : List Nat)
    (s' : DataGraph) (out : List Ev),
    run fuel s (.loadSeq ks) = .ok s' out →
    ∀ k ∈ ks, s.loaded k = true ∨ Ev.load k ∈ out := by
  intro fuel
  induction fuel with
  | zero => intro s ks s' out h; simp [run] at h
  | succ fuel ih =>
    intro s ks s' out h k hk
    cases ks with
    | nil => cases hk
    | cons k0 ks =>
      simp only [run] at h
      split at h
      · rename_i hl0
        rcases List.mem_cons.mp hk with hk | hk
        · subst hk; exact Or.inl hl0
        · exact ih s ks s' out h k hk
      · cases hr : run fuel s (.load k0) with
        | ok s1 o1 =>
          rw [hr] at h
          dsimp only at h
          cases hr2 : run fuel s1 (.loadSeq ks) with
          | ok s2 o2 =>
            rw [hr2] at h
            simp only [Res.withOut] at h
            cases h
            rcases List.mem_cons.mp hk with hk | hk
            · subst hk
              exact Or.inr (List.mem_append_left _ (load_emits _ _ _ _ _ hr))
            · rcases ih s1 ks _ _ hr2 k hk with h1 | h1
              · by_cases hsk : s.loaded k = true
                · exact Or.inl hsk
                · have hrise := run_loadedRise fuel s (.load k0)
                  rw [hr] at hrise
                  exact Or.inr (List.mem_append_left _
                    (hrise k (by simpa using hsk) h1))
              · exact Or.inr (List.mem_append_right _ h1)
          | exc e s2 o2 =>
            rw [hr2] at h
            simp only [Res.withOut] at h
            cases h
          | noFuel =>
            rw [hr2] at h
            simp only [Res.withOut] at h
            cases h
        | exc e s1 o1 =>
          rw [hr] at h
          dsimp only at h
          cases h
        | noFuel =>
          rw [hr] at h
          dsimp only at h
          cases h

/-- The edge-coverage property of a result, relative to the pre-state:
on normal completion, whenever a node's load fragment was written, every
hard or load dependency of that node was either already loaded when the
step began or had its own load fragment written. -/
def EdgeLoads (s : DataGraph) : Res → Prop
  | .ok _ out => ∀ a, Ev.load a ∈ out → ∀ b, b ∈ s.need a ∨ b ∈ s.lneed a →
      s.loaded b = true ∨ Ev.load b ∈ out
  | .exc _ _ _ => True
  | .noFuel => True

/-- Sequential composition of the edge-coverage property. -/
theorem edgeLoads_seq {s sm : DataGraph} {o1 : List Ev} {r : Res}
    (hfr : FrameOK s sm)
    (h1 : ∀ a, Ev.load a ∈ o1 → ∀ b, b ∈ s.need a ∨ b ∈ s.lneed a →
        s.loaded b = true ∨ Ev.load b ∈ o1)
    (hrise : ∀ j, s.loaded j = false → sm.loaded j = true → Ev.load j ∈ o1)
    (h2 : EdgeLoads sm r) :
    EdgeLoads s (Res.withOut o1 r) := by
  cases r with
  | ok s2 o2 =>
    intro a ha b hb
    rcases List.mem_append.mp ha with ha | ha
    · rcases h1 a ha b hb with h | h
      · exact Or.inl h
      · exact Or.inr (List.mem_append_left _ h)
    · have hb' : b ∈ sm.need a ∨ b ∈ sm.lneed a := by
        rw [hfr.1, hfr.2.1]; exact hb
      rcases h2 a ha b hb' with h | h
      · by_cases hs : s.loaded b = true
        · exact Or.inl hs
        · exact Or.inr (List.mem_append_left _
            (hrise b (by simpa using hs) h))
      · exact Or.inr (List.mem_append_right _ h)
  | exc e s2 o2 => trivial
  | noFuel => trivial

/-- Every emission step satisfies the edge-coverage property: the
dependency loop of `_pre_load` runs over `self._need + self._lneed`
before the node's own fragment is written, so any node whose fragment
appears in the output had each of its dependencies loaded beforehand or
emitted into the same output. -/
theorem run_edgeLoads : ∀ (fuel : Nat) (s : DataGraph) (c : Call),
    EdgeLoads s (run fuel s c) := by
  intro fuel
  induction fuel with
  | zero => intro s c; simp [run, EdgeLoads]
  | succ fuel ih =>
    intro s c
    cases c with
    | load i =>
      simp only [run]
      split
      · trivial
      · rename_i hnl
        cases hr : run fuel { s with loaded := upd s.loaded i true }
            (.loadSeq (s.need i ++ s.lneed i)) with
        | ok s2 o2 =>
          dsimp only
          have hfr12 := run_frame fuel { s with loaded := upd s.loaded i true }
            (.loadSeq (s.need i ++ s.lneed i))
          rw [hr] at hfr12
          have hrise1 := run_loadedRise fuel
            { s with loaded := upd s.loaded i true }
            (.loadSeq (s.need i ++ s.lneed i))
          rw [hr] at hrise1
          have hedge1 := ih { s with loaded := upd s.loaded i true }
            (.loadSeq (s.need i ++ s.lneed i))
          rw [hr] at hedge1
          have hseq := run_seqLoads fuel { s with loaded := upd s.loaded i true }
            (s.need i ++ s.lneed i) s2 o2 hr
          refine edgeLoads_seq (frameOK_trans frameOK_loaded hfr12)
            (fun a ha b hb => ?_) (fun j hj0 hj2 => ?_) (ih s2 (.postLoad i))
          · have hgoal : upd s.loaded i true b = true ∨ Ev.load b ∈ o2 →
                s.loaded b = true ∨ Ev.load b ∈ o2 ++ [Ev.load i] := by
              intro hc
              rcases hc with hc | hc
              · by_cases hbi : b = i
                · subst hbi
                  exact Or.inr (List.mem_append_right _
                    (List.mem_cons_self _ _))
                · simp only [upd, if_neg hbi] at hc
                  exact Or.inl hc
              · exact Or.inr (List.mem_append_left _ hc)
            rcases List.mem_append.mp ha with ha | ha
            · exact hgoal (hedge1 a ha b hb)
            · have hai : a = i := by
                rcases List.mem_singleton.mp ha with h
                cases h
                rfl
              subst hai
              exact hgoal (hseq b (List.mem_append.mpr hb))
          · by_cases hji : j = i
            · subst hji
              exact List.mem_append_right _ (List.mem_cons_self _ _)
            · refine List.mem_append_left _ (hrise1 j ?_ hj2)
              show upd s.loaded i true j = false
              simp only [upd, if_neg hji]
              exact hj0
        | exc e s2 o2 => dsimp only; trivial
        | noFuel => trivial
    | loadSeq ks =>
      cases ks with
      | nil => intro a ha; cases ha
      | cons k ks =>
        simp only [run]
        split
        · exact ih s (.loadSeq ks)
        · cases hr : run fuel s (.load k) with
          | ok s1 o =>
            dsimp only
            have hfr := run_frame fuel s (.load k)
            rw [hr] at hfr
            have hrise := run_loadedRise fuel s (.load k)
            rw [hr] at hrise
            have h1 := ih s (.load k)
            rw [hr] at h1
            exact edgeLoads_seq hfr h1 hrise (ih s1 (.loadSeq ks))
          | exc e s1 o => dsimp only; trivial
          | noFuel => trivial
    | postLoad i =>
      simp only [run]
      cases hr : (if s.final i then Res.ok s []
          else run fuel s (.revLoop i 0)) with
      | ok s1 o1 =>
        dsimp only
        have hkey : FrameOK s s1 ∧
            (∀ a, Ev.load a ∈ o1 → ∀ b, b ∈ s.need a ∨ b ∈ s.lneed a →
              s.loaded b = true ∨ Ev.load b ∈ o1) ∧
            (∀ j, s.loaded j = false → s1.loaded j = true →
              Ev.load j ∈ o1) := by
          by_cases hfin : s.final i
          · rw [if_pos hfin] at hr
            cases hr
            refine ⟨frameOK_refl s, fun a ha => ?_, fun j hj0 hj1 => ?_⟩
            · cases ha
            · rw [hj0] at hj1; cases hj1
          · rw [if_neg hfin] at hr
            have hfr := run_frame fuel s (.revLoop i 0)
            rw [hr] at hfr
            have hrise := run_loadedRise fuel s (.revLoop i 0)
            rw [hr] at hrise
            have h1 := ih s (.revLoop i 0)
            rw [hr] at h1
            exact ⟨hfr, h1, hrise⟩
        exact edgeLoads_seq hkey.1 hkey.2.1 hkey.2.2
          (ih s1 (.release (s1.lneed i) i))
      | exc e s1 o1 => dsimp only; trivial
      | noFuel => trivial
    | revLoop i idx =>
      simp only [run]
      split
      · rename_i hlt
        split
        · exact ih s (.revLoop i (idx + 1))
        · cases hr : run fuel s (.load ((s.neededBy i).get ⟨idx, hlt⟩)) with
          | ok s1 o =>
            dsimp only
            have hfr := run_frame fuel s
              (.load ((s.neededBy i).get ⟨idx, hlt⟩))
            rw [hr] at hfr
            have hrise := run_loadedRise fuel s
              (.load ((s.neededBy i).get ⟨idx, hlt⟩))
            rw [hr] at hrise
            have h1 := ih s (.load ((s.neededBy i).get ⟨idx, hlt⟩))
            rw [hr] at h1
            exact edgeLoads_seq hfr h1 hrise (ih s1 (.revLoop i (idx + 1)))
          | exc e s1 o => dsimp only; trivial
          | noFuel => trivial
      · intro a ha; cases ha
    | release ks i =>
      cases ks with
      | nil => intro a ha; cases ha
      | cons k ks =>
        simp only [run]
        cases hnb : pyRemove (s.neededBy k) i with
        | none => trivial
        | some nb =>
          dsimp only
          split
          · cases hr : run fuel { s with neededBy := upd s.neededBy k nb }
                (.unload k) with
            | ok s1 o =>
              dsimp only
              have hnb' : nb = (s.neededBy k).erase i := by
                unfold pyRemove at hnb
                split at hnb
                · exact (Option.some.injEq _ _ ▸ hnb).symm
                · cases hnb
              have hstep : FrameOK s
                  { s with neededBy := upd s.neededBy k nb } := by
                rw [hnb']
                exact frameOK_eraseNB
              have hfr := run_frame fuel
                { s with neededBy := upd s.neededBy k nb } (.unload k)
              rw [hr] at hfr
              have hrise := run_loadedRise fuel
                { s with neededBy := upd s.neededBy k nb } (.unload k)
              rw [hr] at hrise
              have h1 := ih { s with neededBy := upd s.neededBy k nb }
                (.unload k)
              rw [hr] at h1
              exact edgeLoads_seq (frameOK_trans hstep hfr) h1 hrise
                (ih s1 (.release ks i))
            | exc e s1 o => dsimp only; trivial
            | noFuel => trivial
          · cases hrr : run fuel { s with neededBy := upd s.neededBy k nb }
                (.release ks i) with
            | ok s1 o =>
              have h1 := ih { s with neededBy := upd s.neededBy k nb }
                (.release ks i)
              rw [hrr] at h1
              exact h1
            | exc e s1 o => trivial
            | noFuel => trivial
    | unload i =>
      simp only [run]
      split
      · split
        · trivial
        · cases hr : run fuel s (.release (s.need i) i) with
          | ok s1 o =>
            dsimp only
            intro a ha b hb
            have ha' : Ev.load a ∈ o := by
              rcases List.mem_cons.mp ha with h | h
              · cases h
              · exact h
            have h1 := ih s (.release (s.need i) i)
            rw [hr] at h1
            rcases h1 a ha' b hb with h | h
            · exact Or.inl h
            · exact Or.inr (List.mem_cons_of_mem _ h)
          | exc e s1 o => dsimp only; trivial
          | noFuel => trivial
      · trivial

/-- Reachable nodes are covered: chaining the edge-coverage property
along a reachability derivation, starting from a node whose fragment is
in the output, when no node was loaded beforehand. -/
theorem reach_loads {s : DataGraph} {out : List Ev}
    (hall : ∀ j, s.loaded j = false)
    (hedge : ∀ a, Ev.load a ∈ out → ∀ b, b ∈ s.need a ∨ b ∈ s.lneed a →
        s.loaded b = true ∨ Ev.load b ∈ out) :
    ∀ {x i : Nat}, Reach s x i → Ev.load x ∈ out → Ev.load i ∈ out := by
  intro x i h
  induction h with
  | refl j => exact fun hx => hx
  | step hmem _ ihr =>
    intro hx
    rcases hedge _ hx _ hmem with h | h
    · rw [hall _] at h
      cases h
    · exact ihr h

/-- C1 (corrected): `Data.load` on a node whose `_is_loaded` flag is set
raises `DataError`; the dependency loop of `_pre_load` and the
reverse-dependency loop of `_post_load` skip (invoke no `load` on) any
node whose flag is already true; and when an emission pass started on an
all-unloaded graph completes normally, every node reachable from the
root has its load fragment written at least once.  Exactly once fails:
see the counterexample, where a completed pass writes one fragment
twice. -/
theorem load_coverage_spec :
    (∀ (fuel : Nat) (s : DataGraph) (i : Nat), s.loaded i = true →
      loadD (fuel + 1) s i = .exc .dataError s []) ∧
    (∀ (fuel : Nat) (s : DataGraph) (k : Nat) (ks : List Nat),
      s.loaded k = true →
      run (fuel + 1) s (.loadSeq (k :: ks)) = run fuel s (.loadSeq ks)) ∧
    (∀ (fuel : Nat) (s : DataGraph) (i idx : Nat)
      (h : idx < (s.neededBy i).length),
      s.loaded ((s.neededBy i).get ⟨idx, h⟩) = true →
      run (fuel + 1) s (.revLoop i idx) = run fuel s (.revLoop i (idx + 1))) ∧
    (∀ (fuel : Nat) (s : DataGraph) (root : Nat) (s' : DataGraph)
      (out : List Ev),
      (∀ j, s.loaded j = false) →
      loadD fuel s root = .ok s' out →
      ∀ i, Reach s root i → Ev.load i ∈ out) := by
  refine ⟨?_, ?_, ?_, ?_⟩
  · intro fuel s i h
    simp only [loadD, run]
    rw [if_pos h]
  · intro fuel s k ks h
    simp only [run]
    rw [if_pos h]
  · intro fuel s i idx h hload
    simp only [run]
    rw [dif_pos h, if_pos hload]
  · intro fuel s root s' out hall hrun i hreach
    have hrun' : run fuel s (.load root) = .ok s' out := hrun
    have hroot : Ev.load root ∈ out := load_emits fuel s root s' out hrun'
    have hedge := run_edgeLoads fuel s (.load root)
    rw [hrun'] at hedge
    exact reach_loads hall hedge hreach hroot

/-- Concrete instantiation of the coverage half of C1 on the two-node
chain: the pass from node `0` covers its dependency `1`. -/
theorem load_coverage_spec_witness :
    Ev.load 1 ∈ outOf (loadD 10 chain01 0) := by
  exact load_coverage_spec.2.2.2 10 chain01 0
    (stateOf (loadD 10 chain01 0)) (outOf (loadD 10 chain01 0))
    (fun j => rfl) rfl 1
    (Reach.step (Or.inl (by decide)) (Reach.refl 1))

end Cmk
